import Mathlib

/-!
Verification of the CS499 portfolio inventory application.

Part 1 embeds the merge sort primitive of `docs/algorithms.js`.
Part 2 embeds the inventory service of `docs/app/inventoryService.js`
(Milestone Four revision), with the IndexedDB storage collaborator of
`docs/app/db.js` modeled as an oracle deciding whether each persistence
call resolves or rejects, and the permission collaborator modeled as a
boolean capability.
-/

set_option maxHeartbeats 1000000

/-- Embedding of `merge(left, right, compare)` from `docs/algorithms.js`:
two index pointers walk both sorted halves, emitting the left element
whenever `compare(left[i], right[j]) <= 0`, then the remainder of either
side is appended. -/
def merge (cmp : α → α → Int) : List α → List α → List α
  | [], r => r
  | l, [] => l
  | x :: xs, y :: ys =>
    if cmp x y ≤ 0 then x :: merge cmp xs (y :: ys)
    else y :: merge cmp (x :: xs) ys
termination_by l r => l.length + r.length

/-- Embedding of `mergeSort(arr, compare)` from `docs/algorithms.js`:
arrays of length 0 or 1 are returned as-is, otherwise the array is split
at `Math.floor(arr.length / 2)`, both halves are sorted recursively and
merged. (The defensive `TypeError` checks for non-array / non-function
inputs are unrepresentable in the typed embedding.) -/
def mergeSort (cmp : α → α → Int) (arr : List α) : List α :=
  if arr.length ≤ 1 then arr
  else
    merge cmp (mergeSort cmp (arr.take (arr.length / 2)))
      (mergeSort cmp (arr.drop (arr.length / 2)))
termination_by arr.length
decreasing_by
  · simp only [List.length_take]; omega
  · simp only [List.length_drop]; omega

/-- Pairs each element of the input array with its position, starting at `n`.
Used to state stability of `mergeSort`: an element is identified by its
original index. -/
def tagFrom : Nat → List α → List (α × Nat)
  | _, [] => []
  | n, a :: as => (a, n) :: tagFrom (n + 1) as

/-- Combined orderedness-and-stability invariant on tagged lists: the output
is non-decreasing under the comparator on keys, and tagged elements with
tied keys keep increasing tags (original positions). -/
def GoodT (cmp : α → α → Int) (t : List (α × Nat)) : Prop :=
  t.Pairwise (fun p q => cmp p.1 q.1 ≤ 0 ∧ (cmp p.1 q.1 = 0 → p.2 < q.2))

/-! JavaScript string and number semantics used by `inventoryService.js`.

Strings are modeled as `List Char`.  `jsTrim` models
`String.prototype.trim` over the common whitespace characters (space,
tab, line feed, carriage return); `charUpper`/`jsUpper` model
`String.prototype.toUpperCase` on ASCII; `jsStringToNumber` models the
ECMAScript ToNumber coercion on strings restricted to optionally signed
decimal literals (the only shapes the app's form inputs produce):
whitespace-only input coerces to 0, otherwise a decimal numeral is
parsed, anything else is NaN (modeled as `none`). -/
def isWS (c : Char) : Bool :=
  c.toNat = 32 || c.toNat = 9 || c.toNat = 10 || c.toNat = 13

def jsTrim (s : List Char) : List Char :=
  ((s.dropWhile isWS).reverse.dropWhile isWS).reverse

def charUpper (c : Char) : Char :=
  if 97 ≤ c.toNat ∧ c.toNat ≤ 122 then Char.ofNat (c.toNat - 32) else c

def jsUpper (s : List Char) : List Char := s.map charUpper

/-- Embedding of `normalizeSku(sku)`: `sku.trim().toUpperCase()`. -/
def normalizeSku (sku : List Char) : List Char := jsUpper (jsTrim sku)

def isDigit (c : Char) : Bool := 48 ≤ c.toNat && c.toNat ≤ 57

def digitsValAux : Nat → List Char → Option Nat
  | acc, [] => some acc
  | acc, c :: cs =>
    if isDigit c then digitsValAux (10 * acc + (c.toNat - 48)) cs else none

/-- Parses an unsigned decimal numeral (`digits`, `digits.digits`,
`.digits`, `digits.`); anything else is NaN. -/
def parseUnsigned (s : List Char) : Option ℚ :=
  let ip := s.takeWhile (fun c => c ≠ '.')
  let rest := s.dropWhile (fun c => c ≠ '.')
  match rest with
  | [] => if ip.isEmpty then none else (digitsValAux 0 ip).map (fun n => (n : ℚ))
  | _ :: frac =>
    if ip.isEmpty && frac.isEmpty then none
    else
      match digitsValAux 0 ip, digitsValAux 0 frac with
      | some i, some f => some ((i : ℚ) + (f : ℚ) / (10 : ℚ) ^ frac.length)
      | _, _ => none

def parseDec (s : List Char) : Option ℚ :=
  match s with
  | '-' :: rest => (parseUnsigned rest).map (fun q => -q)
  | '+' :: rest => parseUnsigned rest
  | _ => parseUnsigned s

def jsStringToNumber (s : List Char) : Option ℚ :=
  let t := jsTrim s
  if t.isEmpty then some 0 else parseDec t

/-- A JavaScript value supplied for the `name`/`sku` fields of a draft
(form inputs produce strings; absent properties are `undefined`). -/
inductive StrVal
  | str (s : List Char)
  | null
  | undef
deriving DecidableEq

/-- A JavaScript value supplied for the `quantity`/`price` fields of a
draft. -/
inductive NumVal
  | str (s : List Char)
  | num (q : ℚ)
  | null
  | undef
deriving DecidableEq

/-- Models `draft.name ?? ""` / `draft.sku ?? ""`. -/
def strOrEmpty : StrVal → List Char
  | .str s => s
  | .null => []
  | .undef => []

/-- Embedding of `toNumber(value)`: `Number(value)` with non-finite
results collapsed to NaN (`none`).  `Number(null) = 0`,
`Number(undefined) = NaN`, and strings go through ToNumber. -/
def toNumber : NumVal → Option ℚ
  | .num q => some q
  | .null => some 0
  | .undef => none
  | .str s => jsStringToNumber s

/-- An inventory record: `{ id, name, sku, quantity, price }`. -/
structure Item where
  id : Nat
  name : List Char
  sku : List Char
  quantity : ℚ
  price : ℚ
deriving DecidableEq, Repr

/-- A draft submitted to `addItem` / `updateItem` / `validateDraft`. -/
structure Draft where
  name : StrVal
  sku : StrVal
  quantity : NumVal
  price : NumVal
deriving DecidableEq

abbrev Index := List (List Char × Item)

/-- Models `Map.prototype.get`: value of the first (unique) entry with this key. -/
def mapGet : Index → List Char → Option Item
  | [], _ => none
  | e :: m, k => if e.1 = k then some e.2 else mapGet m k

/-- Models `Map.prototype.set`: replace the entry in place if the key is present,
otherwise append a new entry. -/
def mapSet : Index → List Char → Item → Index
  | [], k, v => [(k, v)]
  | e :: m, k, v => if e.1 = k then (k, v) :: m else e :: mapSet m k v

/-- Models `Map.prototype.delete`: remove the entry with this key, if any. -/
def mapDelete : Index → List Char → Index
  | [], _ => []
  | e :: m, k => if e.1 = k then m else e :: mapDelete m k

/-- Service state: `this.items` and `this.skuIndex`. -/
structure SvcState where
  items : List Item
  skuIndex : Index
deriving DecidableEq

/-- Embedding of `rebuildIndex()`: clear the map, then
`set(normalizeSku(item.sku), item)` for each item in order. -/
def rebuildIndex (items : List Item) : Index :=
  items.foldl (fun m it => mapSet m (normalizeSku it.sku) it) []

/-- Embedding of `init()`: `this.items = await getAllItems(); this.rebuildIndex()`,
with `loaded` the collection the storage collaborator returns. -/
def initSvc (loaded : List Item) : SvcState :=
  { items := loaded, skuIndex := rebuildIndex loaded }

/-- Embedding of `getAll()` at the value level: the snapshot lists the
current records. -/
def getAll (st : SvcState) : List Item := st.items

/-- The normalized validation payload `v.value = { name, sku, quantity, price }`. -/
structure NormValue where
  name : List Char
  sku : List Char
  quantity : ℚ
  price : ℚ
deriving DecidableEq

/-- Outcome of `validateDraft`: `{ok: false, message}` or
`{ok: true, message: "OK", value}`. -/
inductive VRes
  | fail (message : String)
  | pass (value : NormValue)
deriving DecidableEq

/-- Embedding of `validateDraft(draft, { existingId })`.  `quantity` must
coerce to a non-negative integer (`Number.isInteger` rejects NaN), `price`
to a non-negative finite number, and the normalized SKU must not belong to
a different record in `this.skuIndex`. -/
def validateDraft (idx : Index) (draft : Draft) (existingId : Option Nat) : VRes :=
  let name := jsTrim (strOrEmpty draft.name)
  let skuRaw := jsTrim (strOrEmpty draft.sku)
  let sku := normalizeSku skuRaw
  if name.isEmpty then .fail "Name is required."
  else if sku.isEmpty then .fail "SKU is required."
  else
    match toNumber draft.quantity with
    | none => .fail "Quantity must be a non-negative integer."
    | some q =>
      if ¬ (q.den = 1 ∧ 0 ≤ q) then .fail "Quantity must be a non-negative integer."
      else
        match toNumber draft.price with
        | none => .fail "Price must be a non-negative number."
        | some p =>
          if p < 0 then .fail "Price must be a non-negative number."
          else
            match mapGet idx sku with
            | some existing =>
              if some existing.id ≠ existingId then .fail "SKU must be unique."
              else .pass ⟨name, sku, q, p⟩
            | none => .pass ⟨name, sku, q, p⟩

/-- A persistence call made on the `db.js` collaborator. -/
inductive StorageCall
  | putItem (it : Item)
  | deleteItemById (id : Nat)
  | clearAndSeed (items : List Item)
deriving DecidableEq

/-- Decides, for each persistence call, whether its promise resolves. -/
abbrev Oracle := StorageCall → Bool

/-- The `{ok, message, item?}` result object returned by the operations. -/
structure OpResult where
  ok : Bool
  message : String
  item : Option Item
deriving DecidableEq

/-- How an `async` operation terminates: a returned result object, or an
exception propagating out of an un-caught `await`. -/
inductive DOut
  | ret (r : OpResult)
  | thrown
deriving DecidableEq

/-- Result of running one operation: its outcome, the state it leaves
behind, and the persistence calls it made, in order. -/
structure OpStep where
  out : DOut
  state : SvcState
  calls : List StorageCall
deriving DecidableEq

/-- Embedding of `requireWritePermission()` with `this.perms.canWrite()`
supplied as a boolean. -/
def requireWritePermission (canW : Bool) : OpResult :=
  if ¬ canW then
    { ok := false, message := "Read-only mode. Unlock admin mode to make changes.", item := none }
  else { ok := true, message := "", item := none }

/-- Embedding of `addItem(draft)`.  `freshId` stands for `makeId()`. -/
def addItem (oracle : Oracle) (canW : Bool) (st : SvcState) (freshId : Nat)
    (draft : Draft) : OpStep :=
  let gate := requireWritePermission canW
  if ¬ gate.ok then ⟨.ret gate, st, []⟩
  else
    match validateDraft st.skuIndex draft none with
    | .fail m => ⟨.ret ⟨false, m, none⟩, st, []⟩
    | .pass v =>
      let item : Item := ⟨freshId, v.name, v.sku, v.quantity, v.price⟩
      let c := StorageCall.putItem item
      if oracle c then
        ⟨.ret ⟨true, "Item added.", some item⟩,
         ⟨st.items ++ [item], mapSet st.skuIndex item.sku item⟩, [c]⟩
      else
        ⟨.ret ⟨false, "Database rejected this item (possible duplicate SKU).", none⟩,
         st, [c]⟩

/-- Models `this.items.findIndex(i => i.id === id)` paired with the record
found there: the index and record of the first item with this id. -/
def findIdxItem : List Item → Nat → Option (Nat × Item)
  | [], _ => none
  | it :: rest, id =>
    if it.id = id then some (0, it)
    else (findIdxItem rest id).map (fun p => (p.1 + 1, p.2))

/-- Embedding of `updateItem(id, draft)`. -/
def updateItem (oracle : Oracle) (canW : Bool) (st : SvcState) (id : Nat)
    (draft : Draft) : OpStep :=
  let gate := requireWritePermission canW
  if ¬ gate.ok then ⟨.ret gate, st, []⟩
  else
    match validateDraft st.skuIndex draft (some id) with
    | .fail m => ⟨.ret ⟨false, m, none⟩, st, []⟩
    | .pass v =>
      match findIdxItem st.items id with
      | none => ⟨.ret ⟨false, "Item not found.", none⟩, st, []⟩
      | some (idx, old) =>
        let oldSku := normalizeSku old.sku
        let updated : Item :=
          { old with name := v.name, sku := v.sku, quantity := v.quantity, price := v.price }
        let c := StorageCall.putItem updated
        if oracle c then
          let newSku := normalizeSku updated.sku
          let idx1 := if oldSku ≠ newSku then mapDelete st.skuIndex oldSku else st.skuIndex
          ⟨.ret ⟨true, "Item updated.", some updated⟩,
           ⟨st.items.set idx updated, mapSet idx1 newSku updated⟩, [c]⟩
        else
          ⟨.ret ⟨false, "Database rejected this update (possible duplicate SKU).", none⟩,
           st, [c]⟩

/-- Embedding of `deleteItem(id)`.  Note there is no `try/catch` around
`await deleteItemById(id)` in the source: a rejected persistence call
propagates as a thrown exception. -/
def deleteItem (oracle : Oracle) (canW : Bool) (st : SvcState) (id : Nat) : OpStep :=
  let gate := requireWritePermission canW
  if ¬ gate.ok then ⟨.ret gate, st, []⟩
  else
    match findIdxItem st.items id with
    | none => ⟨.ret ⟨false, "Item not found.", none⟩, st, []⟩
    | some (idx, old) =>
      let sku := normalizeSku old.sku
      let c := StorageCall.deleteItemById id
      if oracle c then
        ⟨.ret ⟨true, "Item deleted.", none⟩,
         ⟨st.items.eraseIdx idx, mapDelete st.skuIndex sku⟩, [c]⟩
      else ⟨.thrown, st, [c]⟩

/-- The three demo records built by `resetDemoData()`, with the three
`makeId()` results supplied as parameters. -/
def demoItems (ids : Nat × Nat × Nat) : List Item :=
  [⟨ids.1, "Coffee Beans".data, "CB-100".data, 3, (12.99 : ℚ)⟩,
   ⟨ids.2.1, "Filters".data, "FLT-200".data, 25, (4.50 : ℚ)⟩,
   ⟨ids.2.2, "Mugs".data, "MUG-300".data, 6, (8.00 : ℚ)⟩]

/-- Embedding of `resetDemoData()`.  As in `deleteItem`, the bare
`await clearAndSeed(demo)` propagates a rejection as an exception. -/
def resetDemoData (oracle : Oracle) (canW : Bool) (st : SvcState)
    (ids : Nat × Nat × Nat) : OpStep :=
  let gate := requireWritePermission canW
  if ¬ gate.ok then ⟨.ret gate, st, []⟩
  else
    let demo := demoItems ids
    let c := StorageCall.clearAndSeed demo
    if oracle c then
      ⟨.ret ⟨true, "Demo data reset and saved to database.", none⟩,
       ⟨demo, rebuildIndex demo⟩, [c]⟩
    else ⟨.thrown, st, [c]⟩

/-- The index entry `rebuildIndex` and the mutation paths create for a
record: its normalized SKU paired with the record. -/
def skuEntry (it : Item) : List Char × Item := (normalizeSku it.sku, it)

/-- Index/collection consistency (plus id uniqueness, which the service
relies on via `makeId` and the database primary key): the SKU index holds
exactly one entry per live record, keyed by that record's current
normalized SKU; normalized SKUs and ids are unique across live records. -/
def SvcInv (st : SvcState) : Prop :=
  List.Perm st.skuIndex (st.items.map skuEntry) ∧
  (st.items.map (fun it => normalizeSku it.sku)).Nodup ∧
  (st.items.map (fun it => it.id)).Nodup

/-- The validation failure messages `validateDraft` can produce. -/
def validationMessages : List String :=
  ["Name is required.", "SKU is required.",
   "Quantity must be a non-negative integer.", "Price must be a non-negative number.",
   "SKU must be unique."]

/-- Number of index entries whose key is `k`. -/
def countKey : Index → List Char → Nat
  | [], _ => 0
  | e :: m, k => (if e.1 = k then 1 else 0) + countKey m k

/-! Reference-semantics model for claim C8.  `getAll()` is
`return [...this.items]`: JS records are heap objects, `this.items` is an
array of references to them, and the spread produces a fresh array
containing the same references (a shallow copy).  A caller field-write on
a record obtained from the returned array acts on the shared heap. -/
structure RefState where
  heap : List Item
  itemRefs : List Nat
  unlocked : Bool
deriving DecidableEq

/-- Models `getAll()` under reference semantics: a fresh array (list value)
holding the same record references; no permission check is consulted. -/
def getAllRefs (s : RefState) : List Nat := s.itemRefs

/-- The record contents the service observes through `this.items`. -/
def viewItems (s : RefState) : List (Option Item) :=
  s.itemRefs.map (fun r => s.heap.get? r)

/-- A caller mutating (a field of) the record object at reference `r`,
reached through the array `getAll` returned. -/
def clientMutateRecord (s : RefState) (r : Nat) (it : Item) : RefState :=
  { s with heap := s.heap.set r it }

/-- A lawful example comparator on `Fin 3`, used by witnesses. -/
def cmpFin (a b : Fin 3) : Int := (a : Int) - (b : Int)

/-- An adversarial comparator that always answers "greater". -/
def cmpBad : Nat → Nat → Int := fun _ _ => 1

/-- A comparator whose answers are mutually inconsistent: it orders `0`
strictly after `1` in one direction but calls them tied in the other. -/
def cmpW (a b : Nat) : Int := if a = 0 ∧ b = 1 then 1 else 0

/-- A sample valid draft, used by witnesses. -/
def draft0 : Draft := ⟨.str "A".data, .str "B".data, .str "1".data, .num 2⟩

/-- A sample record and service state holding it, used by witnesses and
concrete evaluations (its SKU `"B-1"` is already normalized). -/
def itemB : Item := ⟨1, "Beans".data, "B-1".data, 2, 3⟩

def stB : SvcState := ⟨[itemB], [("B-1".data, itemB)]⟩

/-- A second record with different contents, used to exhibit shared
mutation through `getAll`. -/
def itemC : Item := ⟨1, "Beans".data, "B-1".data, 99, 3⟩

/-- Transforms a normalized validation value back into a draft, as a
caller would resubmit it. -/
def draftOfValue (v : NormValue) : Draft :=
  ⟨.str v.name, .str v.sku, .num v.quantity, .num v.price⟩

/-- The normalized tuple `validateDraft` produces for `draft0` in the
empty state. -/
def value0 : NormValue := ⟨"A".data, "B".data, 1, 2⟩

/-! Theorems. -/

theorem mergeSort_short (cmp : α → α → Int) (l : List α) (h : l.length ≤ 1) :
    mergeSort cmp l = l := by
  rw [mergeSort]; simp [h]

theorem mergeSort_split (cmp : α → α → Int) (l : List α) (h : ¬ l.length ≤ 1) :
    mergeSort cmp l =
      merge cmp (mergeSort cmp (l.take (l.length / 2)))
        (mergeSort cmp (l.drop (l.length / 2))) := by
  rw [mergeSort]; simp [h]

theorem merge_nil_left (cmp : α → α → Int) (r : List α) : merge cmp [] r = r := by
  rw [merge]

theorem merge_nil_right (cmp : α → α → Int) (l : List α) : merge cmp l [] = l := by
  cases l <;> simp [merge]

theorem merge_cons_cons (cmp : α → α → Int) (x y : α) (xs ys : List α) :
    merge cmp (x :: xs) (y :: ys) =
      if cmp x y ≤ 0 then x :: merge cmp xs (y :: ys)
      else y :: merge cmp (x :: xs) ys := by
  rw [merge]

theorem merge_perm (cmp : α → α → Int) :
    ∀ l r : List α, List.Perm (merge cmp l r) (l ++ r) := by
  intro l
  induction l with
  | nil => intro r; rw [merge_nil_left]; simp
  | cons x xs ihx =>
    intro r
    induction r with
    | nil => rw [merge_nil_right]; simp
    | cons y ys ihy =>
      rw [merge_cons_cons]
      by_cases h : cmp x y ≤ 0
      · simpa [h] using (ihx (y :: ys)).cons x
      · simp only [h, if_false]
        exact (ihy.cons y).trans (List.perm_middle).symm

theorem mergeSort_perm_aux (cmp : α → α → Int) :
    ∀ (n : Nat) (l : List α), l.length ≤ n → List.Perm (mergeSort cmp l) l := by
  intro n
  induction n with
  | zero =>
    intro l h
    have : l = [] := List.eq_nil_of_length_eq_zero (Nat.le_zero.mp h)
    subst this
    rw [mergeSort_short]
    simp
  | succ n ih =>
    intro l hl
    by_cases h : l.length ≤ 1
    · rw [mergeSort_short cmp l h]
    · rw [mergeSort_split cmp l h]
      have h2 : 2 ≤ l.length := by omega
      have ht : (l.take (l.length / 2)).length ≤ n := by
        simp only [List.length_take]; omega
      have hd : (l.drop (l.length / 2)).length ≤ n := by
        simp only [List.length_drop]; omega
      have hp := (merge_perm cmp (mergeSort cmp (l.take (l.length / 2)))
        (mergeSort cmp (l.drop (l.length / 2)))).trans ((ih _ ht).append (ih _ hd))
      rwa [List.take_append_drop] at hp

theorem mergeSort_perm (cmp : α → α → Int) (l : List α) : List.Perm (mergeSort cmp l) l :=
  mergeSort_perm_aux cmp l.length l le_rfl

theorem mem_merge_iff (cmp : α → α → Int) {l r : List α} {a : α} :
    a ∈ merge cmp l r ↔ a ∈ l ∨ a ∈ r := by
  rw [(merge_perm cmp l r).mem_iff, List.mem_append]

theorem merge_head? (cmp : α → α → Int) (l r : List α) {a : α}
    (h : (merge cmp l r).head? = some a) : l.head? = some a ∨ r.head? = some a := by
  match l, r with
  | [], r => rw [merge_nil_left] at h; right; exact h
  | x :: xs, [] => rw [merge_nil_right] at h; left; exact h
  | x :: xs, y :: ys =>
    rw [merge_cons_cons] at h
    by_cases hc : cmp x y ≤ 0
    · simp [hc] at h; left; simp [h]
    · simp [hc] at h; right; simp [h]

theorem merge_chain (cmp : α → α → Int)
    (htot : ∀ a b, cmp a b ≤ 0 ∨ cmp b a ≤ 0) :
    ∀ l r : List α, List.Chain' (fun a b => cmp a b ≤ 0) l →
      List.Chain' (fun a b => cmp a b ≤ 0) r →
      List.Chain' (fun a b => cmp a b ≤ 0) (merge cmp l r) := by
  intro l
  induction l with
  | nil => intro r _ hr; rw [merge_nil_left]; exact hr
  | cons x xs ihx =>
    intro r
    induction r with
    | nil => intro hl _; rw [merge_nil_right]; exact hl
    | cons y ys ihy =>
      intro hl hr
      rw [merge_cons_cons]
      by_cases hc : cmp x y ≤ 0
      · simp only [hc, if_true]
        rw [List.chain'_cons']
        refine ⟨?_, ihx (y :: ys) hl.tail hr⟩
        intro b hb
        rcases merge_head? cmp xs (y :: ys) hb with h | h
        · cases xs with
          | nil => simp at h
          | cons x' xs' =>
            simp at h
            subst h
            exact (List.chain'_cons.mp hl).1
        · simp at h; subst h; exact hc
      · simp only [hc, if_false]
        rw [List.chain'_cons']
        refine ⟨?_, ihy hl hr.tail⟩
        intro b hb
        rcases merge_head? cmp (x :: xs) ys hb with h | h
        · simp only [List.head?_cons, Option.some.injEq] at h
          rcases htot x y with h1 | h1
          · exact absurd h1 hc
          · rw [← h]; exact h1
        · cases ys with
          | nil => simp at h
          | cons y' ys' =>
            simp at h
            subst h
            exact (List.chain'_cons.mp hr).1

theorem mergeSort_chain_aux (cmp : α → α → Int)
    (htot : ∀ a b, cmp a b ≤ 0 ∨ cmp b a ≤ 0) :
    ∀ (n : Nat) (l : List α), l.length ≤ n →
      List.Chain' (fun a b => cmp a b ≤ 0) (mergeSort cmp l) := by
  intro n
  induction n with
  | zero =>
    intro l h
    have : l = [] := List.eq_nil_of_length_eq_zero (Nat.le_zero.mp h)
    subst this
    rw [mergeSort_short]
    · simp
    · simp
  | succ n ih =>
    intro l hl
    by_cases h : l.length ≤ 1
    · rw [mergeSort_short cmp l h]
      match l, h with
      | [], _ => simp
      | [a], _ => simp
    · rw [mergeSort_split cmp l h]
      have ht : (l.take (l.length / 2)).length ≤ n := by
        simp only [List.length_take]; omega
      have hd : (l.drop (l.length / 2)).length ≤ n := by
        simp only [List.length_drop]; omega
      exact merge_chain cmp htot _ _ (ih _ ht) (ih _ hd)

theorem mergeSort_chain (cmp : α → α → Int)
    (htot : ∀ a b, cmp a b ≤ 0 ∨ cmp b a ≤ 0) (l : List α) :
    List.Chain' (fun a b => cmp a b ≤ 0) (mergeSort cmp l) :=
  mergeSort_chain_aux cmp htot l.length l le_rfl

theorem tagFrom_le (l : List α) : ∀ n, ∀ p ∈ tagFrom n l, n ≤ p.2 := by
  induction l with
  | nil => intro n p hp; simp [tagFrom] at hp
  | cons a as ih =>
    intro n p hp
    rw [tagFrom] at hp
    rcases List.mem_cons.mp hp with h | h
    · subst h; exact le_refl n
    · exact le_trans (Nat.le_succ n) (ih (n + 1) p h)

theorem tagFrom_tags_lt (l : List α) :
    ∀ n, (tagFrom n l).Pairwise (fun p q => p.2 < q.2) := by
  induction l with
  | nil => intro n; simp [tagFrom]
  | cons a as ih =>
    intro n
    rw [tagFrom, List.pairwise_cons]
    exact ⟨fun q hq => lt_of_lt_of_le (Nat.lt_succ_self n) (tagFrom_le as (n + 1) q hq), ih (n + 1)⟩

theorem merge_goodT (cmp : α → α → Int)
    (htot : ∀ a b, cmp a b ≤ 0 ∨ cmp b a ≤ 0)
    (htrans : ∀ a b c, cmp a b ≤ 0 → cmp b c ≤ 0 → cmp a c ≤ 0)
    (hzero : ∀ a b, cmp a b = 0 → cmp b a = 0) :
    ∀ l r : List (α × Nat), GoodT cmp l → GoodT cmp r →
      (∀ p ∈ l, ∀ q ∈ r, p.2 < q.2) →
      GoodT cmp (merge (fun p q => cmp p.1 q.1) l r) := by
  intro l
  induction l with
  | nil => intro r _ hr _; rw [merge_nil_left]; exact hr
  | cons x xs ihx =>
    intro r
    induction r with
    | nil => intro hl _ _; rw [merge_nil_right]; exact hl
    | cons y ys ihy =>
      intro hl hr hcross
      rw [merge_cons_cons]
      by_cases hc : cmp x.1 y.1 ≤ 0
      · simp only [hc, if_true]
        rw [GoodT, List.pairwise_cons]
        constructor
        · intro q hq
          rcases (mem_merge_iff _).mp hq with h | h
          · exact (List.pairwise_cons.mp hl).1 q h
          · constructor
            · rcases List.mem_cons.mp h with h' | h'
              · subst h'; exact hc
              · exact htrans x.1 y.1 q.1 hc ((List.pairwise_cons.mp hr).1 q h').1
            · intro _
              exact hcross x (by simp) q h
        · exact ihx (y :: ys) (List.pairwise_cons.mp hl).2 hr
            (fun p hp q hq => hcross p (by simp [hp]) q hq)
      · simp only [hc, if_false]
        have hyx : cmp y.1 x.1 ≤ 0 := by
          rcases htot x.1 y.1 with h | h
          · exact absurd h hc
          · exact h
        rw [GoodT, List.pairwise_cons]
        constructor
        · intro q hq
          rcases (mem_merge_iff _).mp hq with h | h
          · have hxq : cmp x.1 q.1 ≤ 0 := by
              rcases List.mem_cons.mp h with h' | h'
              · rw [h']
                rcases htot x.1 x.1 with h1 | h1
                · exact h1
                · exact h1
              · exact ((List.pairwise_cons.mp hl).1 q h').1
            constructor
            · exact htrans y.1 x.1 q.1 hyx hxq
            · intro h0
              exfalso
              have hqy : cmp q.1 y.1 ≤ 0 := le_of_eq (hzero y.1 q.1 h0)
              have hxy : cmp x.1 y.1 ≤ 0 := htrans x.1 q.1 y.1 hxq hqy
              exact hc hxy
          · exact (List.pairwise_cons.mp hr).1 q h
        · exact ihy hl (List.pairwise_cons.mp hr).2
            (fun p hp q hq => hcross p hp q (by simp [hq]))

theorem mergeSort_goodT_aux (cmp : α → α → Int)
    (htot : ∀ a b, cmp a b ≤ 0 ∨ cmp b a ≤ 0)
    (htrans : ∀ a b c, cmp a b ≤ 0 → cmp b c ≤ 0 → cmp a c ≤ 0)
    (hzero : ∀ a b, cmp a b = 0 → cmp b a = 0) :
    ∀ (n : Nat) (t : List (α × Nat)), t.length ≤ n →
      t.Pairwise (fun p q => p.2 < q.2) →
      GoodT cmp (mergeSort (fun p q => cmp p.1 q.1) t) := by
  intro n
  induction n with
  | zero =>
    intro t h _
    have : t = [] := List.eq_nil_of_length_eq_zero (Nat.le_zero.mp h)
    subst this
    rw [mergeSort_short]
    · simp [GoodT]
    · simp
  | succ n ih =>
    intro t ht htags
    by_cases h : t.length ≤ 1
    · rw [mergeSort_short _ t h]
      match t, h with
      | [], _ => simp [GoodT]
      | [a], _ => simp [GoodT]
    · rw [mergeSort_split _ t h]
      have hlt : (t.take (t.length / 2)).length ≤ n := by
        simp only [List.length_take]; omega
      have hld : (t.drop (t.length / 2)).length ≤ n := by
        simp only [List.length_drop]; omega
      have htake : (t.take (t.length / 2)).Pairwise (fun p q => p.2 < q.2) :=
        htags.sublist (List.take_sublist _ t)
      have hdrop : (t.drop (t.length / 2)).Pairwise (fun p q => p.2 < q.2) :=
        htags.sublist (List.drop_sublist _ t)
      refine merge_goodT cmp htot htrans hzero _ _ (ih _ hlt htake) (ih _ hld hdrop) ?_
      intro p hp q hq
      have hp' : p ∈ t.take (t.length / 2) :=
        (mergeSort_perm (fun p q => cmp p.1 q.1) _).mem_iff.mp hp
      have hq' : q ∈ t.drop (t.length / 2) :=
        (mergeSort_perm (fun p q => cmp p.1 q.1) _).mem_iff.mp hq
      have hsplit := List.take_append_drop (t.length / 2) t ▸ htags
      exact ((List.pairwise_append.mp hsplit).2.2) p hp' q hq'

theorem dropWhile_self (p : α → Bool) :
    ∀ l : List α, (l.dropWhile p).dropWhile p = l.dropWhile p := by
  intro l
  induction l with
  | nil => simp
  | cons c l ih =>
    by_cases h : p c
    · simp [List.dropWhile_cons, h, ih]
    · simp [List.dropWhile_cons, h]

theorem dropWhile_head_false (p : α → Bool) :
    ∀ (l : List α) (a : α) (t : List α), l.dropWhile p = a :: t → p a = false := by
  intro l
  induction l with
  | nil => intro a t h; simp at h
  | cons c l ih =>
    intro a t h
    by_cases hc : p c
    · rw [List.dropWhile_cons] at h
      simp only [hc, if_true] at h
      exact ih a t h
    · rw [List.dropWhile_cons] at h
      simp [hc] at h
      rw [← h.1]
      simp [hc]

theorem dropWhile_getLast? (p : α → Bool) :
    ∀ l : List α, l.dropWhile p ≠ [] → (l.dropWhile p).getLast? = l.getLast? := by
  intro l
  induction l with
  | nil => intro h; simp at h
  | cons c l ih =>
    intro h
    by_cases hc : p c
    · rw [List.dropWhile_cons] at h ⊢
      simp only [hc, if_true] at h ⊢
      have hl : l ≠ [] := by
        intro he; subst he; simp at h
      rw [ih h]
      cases l with
      | nil => exact absurd rfl hl
      | cons b bs => rw [List.getLast?_cons_cons]
    · rw [List.dropWhile_cons]
      simp [hc]

theorem dropWhile_eq_self_of_head (p : α → Bool) (l : List α)
    (h : ∀ c ∈ l.head?, p c = false) : l.dropWhile p = l := by
  cases l with
  | nil => rfl
  | cons c t =>
    have hc : p c = false := h c (by simp)
    rw [List.dropWhile_cons, hc]
    simp

theorem jsTrim_head_not_ws (s : List Char) :
    ∀ c ∈ (jsTrim s).head?, isWS c = false := by
  intro c hc
  rw [jsTrim, List.head?_reverse] at hc
  have hne : (s.dropWhile isWS).reverse.dropWhile isWS ≠ [] := by
    intro he
    rw [he] at hc
    simp at hc
  rw [dropWhile_getLast? isWS _ hne, List.getLast?_reverse] at hc
  rcases hu : s.dropWhile isWS with _ | ⟨u, us⟩
  · rw [hu] at hc; simp at hc
  · rw [hu] at hc
    simp only [List.head?_cons, Option.mem_def, Option.some.injEq] at hc
    rw [← hc]
    exact dropWhile_head_false isWS s u us hu

theorem jsTrim_idem (s : List Char) : jsTrim (jsTrim s) = jsTrim s := by
  have h1 : (jsTrim s).dropWhile isWS = jsTrim s :=
    dropWhile_eq_self_of_head isWS (jsTrim s) (jsTrim_head_not_ws s)
  have h2 : (jsTrim s).reverse.dropWhile isWS = (jsTrim s).reverse := by
    rw [jsTrim, List.reverse_reverse]
    exact dropWhile_self isWS _
  rw [jsTrim, h1, h2, List.reverse_reverse]

theorem charOfNat_toNat {n : Nat} (h1 : 65 ≤ n) (h2 : n ≤ 90) :
    (Char.ofNat n).toNat = n := by
  interval_cases n <;> decide

theorem charUpper_toNat (c : Char) (h1 : 97 ≤ c.toNat) (h2 : c.toNat ≤ 122) :
    (charUpper c).toNat = c.toNat - 32 := by
  rw [charUpper, if_pos ⟨h1, h2⟩]
  exact charOfNat_toNat (by omega) (by omega)

theorem charUpper_idem (c : Char) : charUpper (charUpper c) = charUpper c := by
  by_cases h : 97 ≤ c.toNat ∧ c.toNat ≤ 122
  · have ht : (charUpper c).toNat = c.toNat - 32 := charUpper_toNat c h.1 h.2
    have hneg : ¬ (97 ≤ (charUpper c).toNat ∧ (charUpper c).toNat ≤ 122) := by
      rw [ht]; omega
    conv_lhs => rw [charUpper]
    rw [if_neg hneg]
  · have hc : charUpper c = c := by rw [charUpper]; exact if_neg h
    rw [hc]
    exact hc

theorem isWS_charUpper (c : Char) : isWS (charUpper c) = isWS c := by
  by_cases h : 97 ≤ c.toNat ∧ c.toNat ≤ 122
  · have ht : (charUpper c).toNat = c.toNat - 32 := charUpper_toNat c h.1 h.2
    have l : isWS (charUpper c) = false := by
      rw [isWS, ht]
      simp only [Bool.or_eq_false_iff, decide_eq_false_iff_not]
      omega
    have r : isWS c = false := by
      rw [isWS]
      simp only [Bool.or_eq_false_iff, decide_eq_false_iff_not]
      omega
    rw [l, r]
  · have hc : charUpper c = c := by rw [charUpper]; exact if_neg h
    rw [hc]

theorem dropWhile_map_of_comm (p : α → Bool) (f : α → α)
    (hf : ∀ c, p (f c) = p c) :
    ∀ l : List α, (l.map f).dropWhile p = (l.dropWhile p).map f := by
  intro l
  induction l with
  | nil => rfl
  | cons c t ih =>
    rw [List.map_cons, List.dropWhile_cons, List.dropWhile_cons, hf c]
    by_cases h : p c
    · simp [h, ih]
    · simp [h]

theorem jsTrim_jsUpper (s : List Char) : jsTrim (jsUpper s) = jsUpper (jsTrim s) := by
  rw [jsTrim, jsTrim, jsUpper, jsUpper,
    dropWhile_map_of_comm isWS charUpper isWS_charUpper s,
    ← List.map_reverse,
    dropWhile_map_of_comm isWS charUpper isWS_charUpper,
    ← List.map_reverse]

theorem jsUpper_idem (s : List Char) : jsUpper (jsUpper s) = jsUpper s := by
  induction s with
  | nil => rfl
  | cons c t ih =>
    simp only [jsUpper, List.map_cons] at ih ⊢
    rw [charUpper_idem, ih]

theorem normalizeSku_idem (s : List Char) :
    normalizeSku (normalizeSku s) = normalizeSku s := by
  rw [normalizeSku, normalizeSku, jsTrim_jsUpper, jsTrim_idem, jsUpper_idem]

theorem normalizeSku_jsTrim (s : List Char) :
    normalizeSku (jsTrim s) = normalizeSku s := by
  rw [normalizeSku, normalizeSku, jsTrim_idem]

theorem jsTrim_normalizeSku (s : List Char) :
    jsTrim (normalizeSku s) = normalizeSku s := by
  rw [normalizeSku, jsTrim_jsUpper, jsTrim_idem]

theorem mapGet_eq_none_iff (m : Index) (k : List Char) :
    mapGet m k = none ↔ k ∉ m.map Prod.fst := by
  induction m with
  | nil => simp [mapGet]
  | cons e m ih =>
    rw [mapGet]
    by_cases h : e.1 = k
    · rw [if_pos h]
      constructor
      · intro hc
        exact absurd hc (by simp)
      · intro hc
        exfalso
        apply hc
        rw [List.map_cons, List.mem_cons]
        exact Or.inl h.symm
    · simp only [h, if_false, ih, List.map_cons, List.mem_cons]
      constructor
      · intro hk hc
        rcases hc with hc | hc
        · exact h hc.symm
        · exact hk hc
      · intro hk hc
        exact hk (Or.inr hc)

theorem mapGet_some_mem (m : Index) (k : List Char) (v : Item)
    (h : mapGet m k = some v) : (k, v) ∈ m := by
  induction m with
  | nil => simp [mapGet] at h
  | cons e m ih =>
    rw [mapGet] at h
    by_cases he : e.1 = k
    · rw [if_pos he] at h
      have hv : e.2 = v := by injection h
      have hev : e = (k, v) := by
        rw [Prod.ext_iff]
        exact ⟨he, hv⟩
      rw [← hev]
      exact List.mem_cons_self e m
    · rw [if_neg he] at h
      exact List.mem_cons_of_mem e (ih h)

theorem mapGet_of_mem_nodup (m : Index) (k : List Char) (v : Item)
    (hnod : (m.map Prod.fst).Nodup) (hmem : (k, v) ∈ m) :
    mapGet m k = some v := by
  induction m with
  | nil => simp at hmem
  | cons e m ih =>
    rw [List.map_cons, List.nodup_cons] at hnod
    rcases List.mem_cons.mp hmem with h | h
    · rw [← h, mapGet, if_pos rfl]
    · rw [mapGet]
      by_cases he : e.1 = k
      · exfalso
        apply hnod.1
        rw [he]
        exact List.mem_map.mpr ⟨(k, v), h, rfl⟩
      · rw [if_neg he]
        exact ih hnod.2 h

theorem mapSet_of_not_mem (m : Index) (k : List Char) (v : Item)
    (h : k ∉ m.map Prod.fst) : mapSet m k v = m ++ [(k, v)] := by
  induction m with
  | nil => rfl
  | cons e m ih =>
    rw [List.map_cons, List.mem_cons] at h
    push_neg at h
    rw [mapSet, if_neg (fun he => h.1 he.symm), ih h.2, List.cons_append]

theorem findIdxItem_id : ∀ (l : List Item) (id i : Nat) (a : Item),
    findIdxItem l id = some (i, a) → a.id = id := by
  intro l
  induction l with
  | nil => intro id i a h; simp [findIdxItem] at h
  | cons it rest ih =>
    intro id i a h
    rw [findIdxItem] at h
    by_cases hit : it.id = id
    · rw [if_pos hit] at h
      simp at h
      rw [← h.2]
      exact hit
    · rw [if_neg hit] at h
      rcases ho : findIdxItem rest id with _ | ⟨p⟩
      · rw [ho] at h; simp at h
      · rw [ho] at h
        simp at h
        rw [← h.2]
        exact ih id p.1 p.2 (by rw [ho])

theorem findIdxItem_mem : ∀ (l : List Item) (id i : Nat) (a : Item),
    findIdxItem l id = some (i, a) → a ∈ l := by
  intro l
  induction l with
  | nil => intro id i a h; simp [findIdxItem] at h
  | cons it rest ih =>
    intro id i a h
    rw [findIdxItem] at h
    by_cases hit : it.id = id
    · rw [if_pos hit] at h
      simp at h
      rw [← h.2]
      exact List.mem_cons_self it rest
    · rw [if_neg hit] at h
      rcases ho : findIdxItem rest id with _ | ⟨p⟩
      · rw [ho] at h; simp at h
      · rw [ho] at h
        simp at h
        exact List.mem_cons_of_mem it (h.2 ▸ ih id p.1 p.2 (by rw [ho]))

theorem inv_keys_perm {st : SvcState} (hInv : SvcInv st) :
    List.Perm (st.skuIndex.map Prod.fst) (st.items.map (fun it => normalizeSku it.sku)) := by
  have hperm := hInv.1.map Prod.fst
  rw [List.map_map] at hperm
  exact hperm

theorem inv_keys_nodup {st : SvcState} (hInv : SvcInv st) :
    (st.skuIndex.map Prod.fst).Nodup :=
  ((inv_keys_perm hInv).nodup_iff).mpr hInv.2.1

theorem inv_mem_entry {st : SvcState} (hInv : SvcInv st) {e : Item} (he : e ∈ st.items) :
    (normalizeSku e.sku, e) ∈ st.skuIndex :=
  hInv.1.mem_iff.mpr (List.mem_map.mpr ⟨e, he, rfl⟩)

theorem inv_mapGet_mem {st : SvcState} (hInv : SvcInv st) {e : Item} (he : e ∈ st.items) :
    mapGet st.skuIndex (normalizeSku e.sku) = some e :=
  mapGet_of_mem_nodup _ _ _ (inv_keys_nodup hInv) (inv_mem_entry hInv he)

theorem inv_mapGet_some {st : SvcState} (hInv : SvcInv st) {k : List Char} {ex : Item}
    (h : mapGet st.skuIndex k = some ex) : ex ∈ st.items ∧ normalizeSku ex.sku = k := by
  have hmem : (k, ex) ∈ st.skuIndex := mapGet_some_mem _ _ _ h
  have hmem2 := hInv.1.mem_iff.mp hmem
  rcases List.mem_map.mp hmem2 with ⟨it, hit, heq⟩
  rw [skuEntry, Prod.mk.injEq] at heq
  constructor
  · rw [← heq.2]; exact hit
  · rw [← heq.2]; exact heq.1

theorem inv_mapGet_none {st : SvcState} (hInv : SvcInv st) {k : List Char}
    (hk : k ∉ st.items.map (fun it => normalizeSku it.sku)) :
    mapGet st.skuIndex k = none := by
  rw [mapGet_eq_none_iff]
  intro hc
  exact hk ((inv_keys_perm hInv).mem_iff.mp hc)

theorem validateDraft_pass (idx : Index) (d : Draft) (excl : Option Nat) (v : NormValue)
    (h : validateDraft idx d excl = .pass v) :
    v.name = jsTrim (strOrEmpty d.name) ∧ v.name ≠ [] ∧
    v.sku = normalizeSku (jsTrim (strOrEmpty d.sku)) ∧ v.sku ≠ [] ∧
    toNumber d.quantity = some v.quantity ∧ v.quantity.den = 1 ∧ 0 ≤ v.quantity ∧
    toNumber d.price = some v.price ∧ ¬ v.price < 0 ∧
    (∀ ex, mapGet idx v.sku = some ex → some ex.id = excl) := by
  simp only [validateDraft] at h
  by_cases hn : (jsTrim (strOrEmpty d.name)).isEmpty
  · rw [if_pos hn] at h; exact absurd h (by simp)
  · rw [if_neg hn] at h
    by_cases hs : (normalizeSku (jsTrim (strOrEmpty d.sku))).isEmpty
    · rw [if_pos hs] at h; exact absurd h (by simp)
    · rw [if_neg hs] at h
      rcases hq : toNumber d.quantity with _ | q
      · simp only [hq] at h
        exact absurd h (by simp)
      · simp only [hq] at h
        by_cases hqi : ¬ (q.den = 1 ∧ 0 ≤ q)
        · rw [if_pos hqi] at h; exact absurd h (by simp)
        · rw [if_neg hqi] at h
          push_neg at hqi
          rcases hp : toNumber d.price with _ | p
          · simp only [hp] at h
            exact absurd h (by simp)
          · simp only [hp] at h
            by_cases hpn : p < 0
            · rw [if_pos hpn] at h; exact absurd h (by simp)
            · rw [if_neg hpn] at h
              rcases hg : mapGet idx (normalizeSku (jsTrim (strOrEmpty d.sku))) with _ | ex
              · simp only [hg] at h
                have hv : v = ⟨jsTrim (strOrEmpty d.name),
                    normalizeSku (jsTrim (strOrEmpty d.sku)), q, p⟩ := by
                  injection h with hh
                  rw [hh]
                have hnn : jsTrim (strOrEmpty d.name) ≠ [] := by
                  intro hc
                  apply hn
                  rw [hc]
                  rfl
                have hsn : normalizeSku (jsTrim (strOrEmpty d.sku)) ≠ [] := by
                  intro hc
                  apply hs
                  rw [hc]
                  rfl
                subst hv
                refine ⟨rfl, hnn, rfl, hsn, rfl, hqi.1, hqi.2, rfl, hpn, ?_⟩
                intro ex hex
                simp only [hg] at hex
                exact absurd hex (by simp)
              · simp only [hg] at h
                by_cases hid : some ex.id ≠ excl
                · rw [if_pos hid] at h; exact absurd h (by simp)
                · rw [if_neg hid] at h
                  push_neg at hid
                  have hv : v = ⟨jsTrim (strOrEmpty d.name),
                      normalizeSku (jsTrim (strOrEmpty d.sku)), q, p⟩ := by
                    injection h with hh
                    rw [hh]
                  have hnn : jsTrim (strOrEmpty d.name) ≠ [] := by
                    intro hc
                    apply hn
                    rw [hc]
                    rfl
                  have hsn : normalizeSku (jsTrim (strOrEmpty d.sku)) ≠ [] := by
                    intro hc
                    apply hs
                    rw [hc]
                    rfl
                  subst hv
                  refine ⟨rfl, hnn, rfl, hsn, rfl, hqi.1, hqi.2, rfl, hpn, ?_⟩
                  intro ex' hex'
                  simp only [hg] at hex'
                  have hx : ex = ex' := by injection hex'
                  rw [← hx]
                  exact hid

theorem validateDraft_fail_mem (idx : Index) (d : Draft) (excl : Option Nat) (m : String)
    (h : validateDraft idx d excl = .fail m) : m ∈ validationMessages := by
  simp only [validateDraft] at h
  by_cases hn : (jsTrim (strOrEmpty d.name)).isEmpty
  · rw [if_pos hn] at h
    injection h with hh
    rw [← hh]
    simp [validationMessages]
  · rw [if_neg hn] at h
    by_cases hs : (normalizeSku (jsTrim (strOrEmpty d.sku))).isEmpty
    · rw [if_pos hs] at h
      injection h with hh
      rw [← hh]
      simp [validationMessages]
    · rw [if_neg hs] at h
      rcases hq : toNumber d.quantity with _ | q
      · simp only [hq] at h
        injection h with hh
        rw [← hh]
        simp [validationMessages]
      · simp only [hq] at h
        by_cases hqi : ¬ (q.den = 1 ∧ 0 ≤ q)
        · rw [if_pos hqi] at h
          injection h with hh
          rw [← hh]
          simp [validationMessages]
        · rw [if_neg hqi] at h
          rcases hp : toNumber d.price with _ | p
          · simp only [hp] at h
            injection h with hh
            rw [← hh]
            simp [validationMessages]
          · simp only [hp] at h
            by_cases hpn : p < 0
            · rw [if_pos hpn] at h
              injection h with hh
              rw [← hh]
              simp [validationMessages]
            · rw [if_neg hpn] at h
              rcases hg : mapGet idx (normalizeSku (jsTrim (strOrEmpty d.sku))) with _ | ex
              · simp only [hg] at h
                exact absurd h (by simp)
              · simp only [hg] at h
                by_cases hid : some ex.id ≠ excl
                · rw [if_pos hid] at h
                  injection h with hh
                  rw [← hh]
                  simp [validationMessages]
                · rw [if_neg hid] at h; exact absurd h (by simp)

theorem skuEntry_injective : Function.Injective skuEntry :=
  fun _ _ h => congrArg Prod.snd h

theorem ids_nodup_inj {items : List Item}
    (h : (items.map (fun it => it.id)).Nodup) {a b : Item}
    (ha : a ∈ items) (hb : b ∈ items) (hid : a.id = b.id) : a = b :=
  List.inj_on_of_nodup_map h ha hb hid

theorem rebuildIndex_go : ∀ (items : List Item) (m : Index),
    ((m.map Prod.fst) ++ items.map (fun it => normalizeSku it.sku)).Nodup →
    items.foldl (fun m it => mapSet m (normalizeSku it.sku) it) m
      = m ++ items.map skuEntry := by
  intro items
  induction items with
  | nil => intro m _; simp
  | cons it rest ih =>
    intro m hnod
    rw [List.foldl_cons]
    have hfresh : normalizeSku it.sku ∉ m.map Prod.fst := by
      intro hc
      rcases List.nodup_append.mp hnod with ⟨_, _, hdisj⟩
      exact hdisj hc (by simp)
    rw [mapSet_of_not_mem _ _ _ hfresh]
    have hnod2 : (((m ++ [(normalizeSku it.sku, it)]).map Prod.fst) ++
        rest.map (fun it => normalizeSku it.sku)).Nodup := by
      rw [List.map_append, List.append_assoc]
      simpa using hnod
    rw [ih _ hnod2]
    simp [skuEntry]

theorem rebuildIndex_eq (items : List Item)
    (hnod : (items.map (fun it => normalizeSku it.sku)).Nodup) :
    rebuildIndex items = items.map skuEntry := by
  have h := rebuildIndex_go items [] (by simpa using hnod)
  simpa [rebuildIndex] using h

theorem svcInv_initSvc (loaded : List Item)
    (hsku : (loaded.map (fun it => normalizeSku it.sku)).Nodup)
    (hids : (loaded.map (fun it => it.id)).Nodup) :
    SvcInv (initSvc loaded) := by
  refine ⟨?_, hsku, hids⟩
  rw [initSvc, rebuildIndex_eq loaded hsku]

theorem validateDraft_pass_lookup (idx : Index) (d : Draft) (excl : Option Nat)
    (v : NormValue) (h : validateDraft idx d excl = .pass v) :
    ∀ ex, mapGet idx v.sku = some ex → some ex.id = excl :=
  (validateDraft_pass idx d excl v h).2.2.2.2.2.2.2.2.2

theorem validateDraft_pass_sku_norm (idx : Index) (d : Draft) (excl : Option Nat)
    (v : NormValue) (h : validateDraft idx d excl = .pass v) :
    normalizeSku v.sku = v.sku := by
  rw [(validateDraft_pass idx d excl v h).2.2.1, normalizeSku_idem]

theorem validateDraft_pass_none_lookup (idx : Index) (d : Draft) (v : NormValue)
    (h : validateDraft idx d none = .pass v) : mapGet idx v.sku = none := by
  rcases hg : mapGet idx v.sku with _ | ex
  · rfl
  · exact absurd (validateDraft_pass_lookup idx d none v h ex hg) (by simp)

theorem svcInv_addItem (oracle : Oracle) (canW : Bool) (st : SvcState) (freshId : Nat)
    (draft : Draft) (hInv : SvcInv st)
    (hfresh : freshId ∉ st.items.map (fun it => it.id)) :
    SvcInv (addItem oracle canW st freshId draft).state := by
  simp only [addItem]
  by_cases hg : ¬ (requireWritePermission canW).ok = true
  · rw [if_pos hg]; exact hInv
  · rw [if_neg hg]
    rcases hv : validateDraft st.skuIndex draft none with m | v
    · exact hInv
    · simp only []
      by_cases ho : oracle (.putItem ⟨freshId, v.name, v.sku, v.quantity, v.price⟩) = true
      · rw [if_pos ho]
        have hlook : mapGet st.skuIndex v.sku = none :=
          validateDraft_pass_none_lookup _ _ _ hv
        have hnorm : normalizeSku v.sku = v.sku :=
          validateDraft_pass_sku_norm _ _ _ _ hv
        have hkeys : v.sku ∉ st.skuIndex.map Prod.fst :=
          (mapGet_eq_none_iff _ _).mp hlook
        have hskus : v.sku ∉ st.items.map (fun it => normalizeSku it.sku) := by
          intro hc
          exact hkeys ((inv_keys_perm hInv).mem_iff.mpr hc)
        have hentry : skuEntry ⟨freshId, v.name, v.sku, v.quantity, v.price⟩
            = (v.sku, ⟨freshId, v.name, v.sku, v.quantity, v.price⟩) := by
          rw [skuEntry]
          rw [show (⟨freshId, v.name, v.sku, v.quantity, v.price⟩ : Item).sku = v.sku from rfl]
          rw [hnorm]
        refine ⟨?_, ?_, ?_⟩
        · rw [mapSet_of_not_mem _ _ _ hkeys, List.map_append]
          rw [show List.map skuEntry [(⟨freshId, v.name, v.sku, v.quantity, v.price⟩ : Item)]
              = [(v.sku, ⟨freshId, v.name, v.sku, v.quantity, v.price⟩)] from by
            rw [List.map_cons, List.map_nil, hentry]]
          exact hInv.1.append (List.Perm.refl _)
        · rw [List.map_append]
          rw [List.nodup_append]
          refine ⟨hInv.2.1, by simp, ?_⟩
          intro a ha hb
          simp only [List.map_cons, List.map_nil, List.mem_singleton] at hb
          rw [hnorm] at hb
          rw [hb] at ha
          exact hskus ha
        · rw [List.map_append]
          rw [List.nodup_append]
          refine ⟨hInv.2.2, by simp, ?_⟩
          intro a ha hb
          simp only [List.map_cons, List.map_nil, List.mem_singleton] at hb
          rw [hb] at ha
          exact hfresh ha
      · rw [if_neg ho]; exact hInv

theorem svcInv_resetDemoData (oracle : Oracle) (canW : Bool) (st : SvcState)
    (i1 i2 i3 : Nat) (hInv : SvcInv st)
    (hids : i1 ≠ i2 ∧ i1 ≠ i3 ∧ i2 ≠ i3) :
    SvcInv (resetDemoData oracle canW st (i1, i2, i3)).state := by
  simp only [resetDemoData]
  by_cases hg : ¬ (requireWritePermission canW).ok = true
  · rw [if_pos hg]; exact hInv
  · rw [if_neg hg]
    by_cases ho : oracle (.clearAndSeed (demoItems (i1, i2, i3))) = true
    · rw [if_pos ho]
      have hsku : ((demoItems (i1, i2, i3)).map (fun it => normalizeSku it.sku)).Nodup := by
        simp only [demoItems, List.map_cons, List.map_nil]
        decide
      have hid : ((demoItems (i1, i2, i3)).map (fun it => it.id)).Nodup := by
        simp only [demoItems, List.map_cons, List.map_nil]
        simp [List.nodup_cons]
        exact ⟨⟨hids.1, hids.2.1⟩, hids.2.2⟩
      exact svcInv_initSvc _ hsku hid
    · rw [if_neg ho]; exact hInv

theorem mapDelete_perm (m : Index) (k : List Char) (w : Item)
    (hnod : (m.map Prod.fst).Nodup) (hmem : (k, w) ∈ m) :
    List.Perm m ((k, w) :: mapDelete m k) := by
  induction m with
  | nil => simp at hmem
  | cons e m ih =>
    rw [List.map_cons, List.nodup_cons] at hnod
    by_cases he : e.1 = k
    · have hew : e = (k, w) := by
        rcases List.mem_cons.mp hmem with h | h
        · exact h.symm
        · exfalso
          apply hnod.1
          rw [he]
          exact List.mem_map.mpr ⟨(k, w), h, rfl⟩
      rw [mapDelete, if_pos he, ← hew]
    · have hw : (k, w) ∈ m := by
        rcases List.mem_cons.mp hmem with h | h
        · exact absurd (congrArg Prod.fst h.symm) he
        · exact h
      rw [mapDelete, if_neg he]
      exact ((ih hnod.2 hw).cons e).trans (List.Perm.swap _ _ _)

theorem mapDelete_sublist (m : Index) (k : List Char) :
    List.Sublist (mapDelete m k) m := by
  induction m with
  | nil => simp [mapDelete]
  | cons e m ih =>
    rw [mapDelete]
    by_cases he : e.1 = k
    · rw [if_pos he]
      exact (List.sublist_cons_self e m)
    · rw [if_neg he]
      exact ih.cons₂ e

theorem mapSet_replace_perm (m : Index) (k : List Char) (v w : Item)
    (hnod : (m.map Prod.fst).Nodup) (hmem : (k, w) ∈ m) :
    List.Perm ((k, w) :: mapSet m k v) ((k, v) :: m) := by
  induction m with
  | nil => simp at hmem
  | cons e m ih =>
    rw [List.map_cons, List.nodup_cons] at hnod
    by_cases he : e.1 = k
    · have hew : e = (k, w) := by
        rcases List.mem_cons.mp hmem with h | h
        · exact h.symm
        · exfalso
          apply hnod.1
          rw [he]
          exact List.mem_map.mpr ⟨(k, w), h, rfl⟩
      rw [mapSet, if_pos he, hew]
      exact List.Perm.swap _ _ _
    · have hw : (k, w) ∈ m := by
        rcases List.mem_cons.mp hmem with h | h
        · exact absurd (congrArg Prod.fst h.symm) he
        · exact h
      rw [mapSet, if_neg he]
      exact ((List.Perm.swap e (k, w) (mapSet m k v)).trans
        ((ih hnod.2 hw).cons e)).trans (List.Perm.swap (k, v) e m)

theorem findIdxItem_set_perm : ∀ (l : List Item) (id i : Nat) (a v : Item),
    findIdxItem l id = some (i, a) → List.Perm (a :: l.set i v) (v :: l) := by
  intro l
  induction l with
  | nil => intro id i a v h; simp [findIdxItem] at h
  | cons it rest ih =>
    intro id i a v h
    rw [findIdxItem] at h
    by_cases hit : it.id = id
    · rw [if_pos hit] at h
      simp at h
      rw [← h.1, ← h.2, List.set_cons_zero]
      exact List.Perm.swap _ _ _
    · rw [if_neg hit] at h
      rcases ho : findIdxItem rest id with _ | ⟨p⟩
      · rw [ho] at h; simp at h
      · rw [ho] at h
        simp at h
        obtain ⟨hi, ha⟩ := h
        subst ha
        rw [← hi, List.set_cons_succ]
        exact ((List.Perm.swap it p.2 (rest.set p.1 v)).trans
          ((ih id p.1 p.2 v (by rw [ho])).cons it)).trans (List.Perm.swap v it rest)

theorem findIdxItem_eraseIdx_perm : ∀ (l : List Item) (id i : Nat) (a : Item),
    findIdxItem l id = some (i, a) → List.Perm (a :: l.eraseIdx i) l := by
  intro l
  induction l with
  | nil => intro id i a h; simp [findIdxItem] at h
  | cons it rest ih =>
    intro id i a h
    rw [findIdxItem] at h
    by_cases hit : it.id = id
    · rw [if_pos hit] at h
      simp at h
      rw [← h.1, ← h.2, List.eraseIdx_cons_zero]
    · rw [if_neg hit] at h
      rcases ho : findIdxItem rest id with _ | ⟨p⟩
      · rw [ho] at h; simp at h
      · rw [ho] at h
        simp at h
        obtain ⟨hi, ha⟩ := h
        subst ha
        rw [← hi, List.eraseIdx_cons_succ]
        exact (List.Perm.swap _ _ _).trans ((ih id p.1 p.2 (by rw [ho])).cons it)

theorem findIdxItem_mem_set : ∀ (l : List Item) (id i : Nat) (a v : Item),
    findIdxItem l id = some (i, a) → v ∈ l.set i v := by
  intro l
  induction l with
  | nil => intro id i a v h; simp [findIdxItem] at h
  | cons it rest ih =>
    intro id i a v h
    rw [findIdxItem] at h
    by_cases hit : it.id = id
    · rw [if_pos hit] at h
      simp at h
      rw [← h.1, List.set_cons_zero]
      exact List.mem_cons_self _ _
    · rw [if_neg hit] at h
      rcases ho : findIdxItem rest id with _ | ⟨p⟩
      · rw [ho] at h; simp at h
      · rw [ho] at h
        simp at h
        obtain ⟨hi, ha⟩ := h
        subst ha
        rw [← hi, List.set_cons_succ]
        exact List.mem_cons_of_mem it (ih id p.1 p.2 v (by rw [ho]))

theorem svcInv_deleteItem (oracle : Oracle) (canW : Bool) (st : SvcState) (id : Nat)
    (hInv : SvcInv st) : SvcInv (deleteItem oracle canW st id).state := by
  simp only [deleteItem]
  by_cases hg : ¬ (requireWritePermission canW).ok = true
  · rw [if_pos hg]; exact hInv
  · rw [if_neg hg]
    rcases hf : findIdxItem st.items id with _ | ⟨i, old⟩
    · exact hInv
    · simp only []
      by_cases ho : oracle (.deleteItemById id) = true
      · rw [if_pos ho]
        have hmem : old ∈ st.items := findIdxItem_mem _ _ _ _ hf
        have h1 : List.Perm st.skuIndex
            ((normalizeSku old.sku, old) :: mapDelete st.skuIndex (normalizeSku old.sku)) :=
          mapDelete_perm _ _ _ (inv_keys_nodup hInv) (inv_mem_entry hInv hmem)
        have h2 : List.Perm (old :: st.items.eraseIdx i) st.items :=
          findIdxItem_eraseIdx_perm _ _ _ _ hf
        refine ⟨?_, ?_, ?_⟩
        · have hchain : List.Perm
              ((normalizeSku old.sku, old) :: mapDelete st.skuIndex (normalizeSku old.sku))
              ((normalizeSku old.sku, old) :: (st.items.eraseIdx i).map skuEntry) := by
            have h3 := (h2.map skuEntry).symm
            rw [List.map_cons] at h3
            exact (h1.symm.trans hInv.1).trans h3
          exact hchain.cons_inv
        · have h4 := (h2.map (fun it => normalizeSku it.sku)).symm
          rw [List.map_cons] at h4
          exact (List.nodup_cons.mp ((h4.nodup_iff).mp hInv.2.1)).2
        · have h5 := (h2.map (fun it => it.id)).symm
          rw [List.map_cons] at h5
          exact (List.nodup_cons.mp ((h5.nodup_iff).mp hInv.2.2)).2
      · rw [if_neg ho]; exact hInv

theorem updateItem_core (st : SvcState) (draft : Draft) (hInv : SvcInv st) (id i : Nat)
    (old : Item) (v : NormValue)
    (hv : validateDraft st.skuIndex draft (some id) = .pass v)
    (hf : findIdxItem st.items id = some (i, old)) :
    SvcInv ⟨st.items.set i ⟨old.id, v.name, v.sku, v.quantity, v.price⟩,
      mapSet (if normalizeSku old.sku ≠ normalizeSku v.sku
              then mapDelete st.skuIndex (normalizeSku old.sku) else st.skuIndex)
        (normalizeSku v.sku) ⟨old.id, v.name, v.sku, v.quantity, v.price⟩⟩ := by
  have hmem : old ∈ st.items := findIdxItem_mem _ _ _ _ hf
  have holdid : old.id = id := findIdxItem_id _ _ _ _ hf
  have hlook := validateDraft_pass_lookup _ _ _ _ hv
  have hset := findIdxItem_set_perm st.items id i old
    ⟨old.id, v.name, v.sku, v.quantity, v.price⟩ hf
  have hsetsku := hset.map (fun it => normalizeSku it.sku)
  simp only [List.map_cons] at hsetsku
  have hsetids := hset.map (fun it => it.id)
  simp only [List.map_cons] at hsetids
  have hsetentry := hset.map skuEntry
  simp only [List.map_cons] at hsetentry
  have hids : ((st.items.set i
      (⟨old.id, v.name, v.sku, v.quantity, v.price⟩ : Item)).map (fun it => it.id)).Nodup := by
    have h3 := hsetids.cons_inv
    exact (h3.nodup_iff).mpr hInv.2.2
  by_cases hAB : normalizeSku old.sku = normalizeSku v.sku
  · rw [if_neg (not_not_intro hAB)]
    have hentry : (normalizeSku v.sku, old) ∈ st.skuIndex := by
      rw [← hAB]
      exact inv_mem_entry hInv hmem
    have h1 := mapSet_replace_perm st.skuIndex (normalizeSku v.sku)
      ⟨old.id, v.name, v.sku, v.quantity, v.price⟩ old (inv_keys_nodup hInv) hentry
    refine ⟨?_, ?_, hids⟩
    · have he2 : skuEntry old = (normalizeSku v.sku, old) := by
        rw [skuEntry, hAB]
      have hre : List.Perm
          ((normalizeSku v.sku, (⟨old.id, v.name, v.sku, v.quantity, v.price⟩ : Item)) ::
            (st.items.map skuEntry))
          ((normalizeSku v.sku, old) ::
            ((st.items.set i ⟨old.id, v.name, v.sku, v.quantity, v.price⟩).map skuEntry)) := by
        have h5 := hsetentry.symm
        rw [he2] at h5
        exact h5
      exact ((h1.trans (hInv.1.cons _)).trans hre).cons_inv
    · have h2 := hsetsku
      rw [hAB] at h2
      exact (h2.cons_inv.nodup_iff).mpr hInv.2.1
  · rw [if_pos hAB]
    have hnone : mapGet st.skuIndex (normalizeSku v.sku) = none := by
      rcases hgk : mapGet st.skuIndex (normalizeSku v.sku) with _ | ex
      · rfl
      · exfalso
        have hnormv : normalizeSku v.sku = v.sku := validateDraft_pass_sku_norm _ _ _ _ hv
        have hgk2 := hgk
        rw [hnormv] at hgk2
        have hexid : ex.id = id := by
          have := hlook ex hgk2
          injection this
        have hsome := inv_mapGet_some hInv hgk
        have hexold : ex = old := ids_nodup_inj hInv.2.2 hsome.1 hmem (by rw [hexid, holdid])
        apply hAB
        rw [← hsome.2, hexold]
    have hknotkeys : normalizeSku v.sku ∉ st.skuIndex.map Prod.fst :=
      (mapGet_eq_none_iff _ _).mp hnone
    have hknotskus : normalizeSku v.sku ∉ st.items.map (fun it => normalizeSku it.sku) :=
      fun hc => hknotkeys ((inv_keys_perm hInv).mem_iff.mpr hc)
    have hfresh1 : normalizeSku v.sku
        ∉ (mapDelete st.skuIndex (normalizeSku old.sku)).map Prod.fst :=
      fun hc => hknotkeys
        (((mapDelete_sublist st.skuIndex (normalizeSku old.sku)).map Prod.fst).subset hc)
    rw [mapSet_of_not_mem _ _ _ hfresh1]
    have hdel := mapDelete_perm st.skuIndex (normalizeSku old.sku) old
      (inv_keys_nodup hInv) (inv_mem_entry hInv hmem)
    refine ⟨?_, ?_, hids⟩
    · have c1 := List.perm_append_singleton
        ((normalizeSku v.sku, (⟨old.id, v.name, v.sku, v.quantity, v.price⟩ : Item)))
        (mapDelete st.skuIndex (normalizeSku old.sku))
      have chain :=
        ((c1.cons ((normalizeSku old.sku, old))).trans
          (List.Perm.swap
            ((normalizeSku v.sku, (⟨old.id, v.name, v.sku, v.quantity, v.price⟩ : Item)))
            ((normalizeSku old.sku, old))
            (mapDelete st.skuIndex (normalizeSku old.sku)))).trans
          ((hdel.symm.cons _).trans (hInv.1.cons _))
      exact (chain.trans hsetentry.symm).cons_inv
    · have hnod2 : (normalizeSku v.sku ::
          st.items.map (fun it => normalizeSku it.sku)).Nodup :=
        List.nodup_cons.mpr ⟨hknotskus, hInv.2.1⟩
      have h6 := (hsetsku.nodup_iff).mpr hnod2
      exact (List.nodup_cons.mp h6).2

theorem countKey_eq_zero (m : Index) (k : List Char)
    (h : k ∉ m.map Prod.fst) : countKey m k = 0 := by
  induction m with
  | nil => rfl
  | cons e m ih =>
    rw [List.map_cons, List.mem_cons] at h
    push_neg at h
    rw [countKey, if_neg (fun hc => h.1 hc.symm), ih h.2]

theorem countKey_eq_one (m : Index) (k : List Char) (v : Item)
    (hnod : (m.map Prod.fst).Nodup) (hmem : (k, v) ∈ m) : countKey m k = 1 := by
  induction m with
  | nil => simp at hmem
  | cons e m ih =>
    rw [List.map_cons, List.nodup_cons] at hnod
    by_cases he : e.1 = k
    · rw [countKey, if_pos he]
      have hz : countKey m k = 0 := by
        apply countKey_eq_zero
        rw [← he]
        exact hnod.1
      rw [hz]
    · have hw : (k, v) ∈ m := by
        rcases List.mem_cons.mp hmem with h | h
        · exact absurd (congrArg Prod.fst h.symm) he
        · exact h
      rw [countKey, if_neg he, ih hnod.2 hw]

theorem svcInv_updateItem (oracle : Oracle) (canW : Bool) (st : SvcState) (id : Nat)
    (draft : Draft) (hInv : SvcInv st) :
    SvcInv (updateItem oracle canW st id draft).state := by
  simp only [updateItem]
  by_cases hg : ¬ (requireWritePermission canW).ok = true
  · rw [if_pos hg]; exact hInv
  · rw [if_neg hg]
    rcases hv : validateDraft st.skuIndex draft (some id) with m | v
    · exact hInv
    · simp only []
      rcases hfi : findIdxItem st.items id with _ | ⟨i, old⟩
      · exact hInv
      · simp only []
        by_cases ho : oracle (.putItem ⟨old.id, v.name, v.sku, v.quantity, v.price⟩) = true
        · rw [if_pos ho]
          exact updateItem_core st draft hInv id i old v hv hfi
        · rw [if_neg ho]; exact hInv

theorem updateItem_core_get (st : SvcState) (draft : Draft) (hInv : SvcInv st) (id i : Nat)
    (old : Item) (v : NormValue)
    (hv : validateDraft st.skuIndex draft (some id) = .pass v)
    (hf : findIdxItem st.items id = some (i, old)) :
    mapGet (mapSet (if normalizeSku old.sku ≠ normalizeSku v.sku
              then mapDelete st.skuIndex (normalizeSku old.sku) else st.skuIndex)
        (normalizeSku v.sku) ⟨old.id, v.name, v.sku, v.quantity, v.price⟩)
      (normalizeSku v.sku) = some ⟨old.id, v.name, v.sku, v.quantity, v.price⟩ :=
  inv_mapGet_mem (updateItem_core st draft hInv id i old v hv hf)
    (findIdxItem_mem_set st.items id i old ⟨old.id, v.name, v.sku, v.quantity, v.price⟩ hf)

theorem updateItem_core_count (st : SvcState) (draft : Draft) (hInv : SvcInv st) (id i : Nat)
    (old : Item) (v : NormValue)
    (hv : validateDraft st.skuIndex draft (some id) = .pass v)
    (hf : findIdxItem st.items id = some (i, old)) :
    countKey (mapSet (if normalizeSku old.sku ≠ normalizeSku v.sku
              then mapDelete st.skuIndex (normalizeSku old.sku) else st.skuIndex)
        (normalizeSku v.sku) ⟨old.id, v.name, v.sku, v.quantity, v.price⟩)
      (normalizeSku v.sku) = 1 :=
  countKey_eq_one _ _ ⟨old.id, v.name, v.sku, v.quantity, v.price⟩
    (inv_keys_nodup (updateItem_core st draft hInv id i old v hv hf))
    (mapGet_some_mem _ _ _ (updateItem_core_get st draft hInv id i old v hv hf))

theorem updateItem_core_oldgone (st : SvcState) (draft : Draft) (hInv : SvcInv st)
    (id i : Nat) (old : Item) (v : NormValue)
    (hv : validateDraft st.skuIndex draft (some id) = .pass v)
    (hf : findIdxItem st.items id = some (i, old))
    (hne : normalizeSku old.sku ≠ normalizeSku v.sku) :
    mapGet (mapSet (if normalizeSku old.sku ≠ normalizeSku v.sku
              then mapDelete st.skuIndex (normalizeSku old.sku) else st.skuIndex)
        (normalizeSku v.sku) ⟨old.id, v.name, v.sku, v.quantity, v.price⟩)
      (normalizeSku old.sku) = none := by
  have hmem : old ∈ st.items := findIdxItem_mem _ _ _ _ hf
  have holdid : old.id = id := findIdxItem_id _ _ _ _ hf
  have hlook := validateDraft_pass_lookup _ _ _ _ hv
  have hnone : mapGet st.skuIndex (normalizeSku v.sku) = none := by
    rcases hgk : mapGet st.skuIndex (normalizeSku v.sku) with _ | ex
    · rfl
    · exfalso
      have hnormv : normalizeSku v.sku = v.sku := validateDraft_pass_sku_norm _ _ _ _ hv
      have hgk2 := hgk
      rw [hnormv] at hgk2
      have hexid : ex.id = id := by
        have := hlook ex hgk2
        injection this
      have hsome := inv_mapGet_some hInv hgk
      have hexold : ex = old := ids_nodup_inj hInv.2.2 hsome.1 hmem (by rw [hexid, holdid])
      apply hne
      rw [← hsome.2, hexold]
  have hknotskus : normalizeSku v.sku ∉ st.items.map (fun it => normalizeSku it.sku) := by
    intro hc
    exact ((mapGet_eq_none_iff _ _).mp hnone) ((inv_keys_perm hInv).mem_iff.mpr hc)
  have hset := findIdxItem_set_perm st.items id i old
    ⟨old.id, v.name, v.sku, v.quantity, v.price⟩ hf
  have hsetsku := hset.map (fun it => normalizeSku it.sku)
  simp only [List.map_cons] at hsetsku
  have hnod2 : (normalizeSku v.sku ::
      st.items.map (fun it => normalizeSku it.sku)).Nodup :=
    List.nodup_cons.mpr ⟨hknotskus, hInv.2.1⟩
  have h6 := (hsetsku.nodup_iff).mpr hnod2
  exact inv_mapGet_none (updateItem_core st draft hInv id i old v hv hf)
    (List.nodup_cons.mp h6).1

theorem updateItem_rename (oracle : Oracle) (canW : Bool) (st : SvcState) (id : Nat)
    (draft : Draft) (hInv : SvcInv st) (u : Item)
    (hout : (updateItem oracle canW st id draft).out = .ret ⟨true, "Item updated.", some u⟩) :
    ∀ i old, findIdxItem st.items id = some (i, old) →
      u.id = old.id ∧
      mapGet (updateItem oracle canW st id draft).state.skuIndex (normalizeSku u.sku) = some u ∧
      countKey (updateItem oracle canW st id draft).state.skuIndex (normalizeSku u.sku) = 1 ∧
      (normalizeSku old.sku ≠ normalizeSku u.sku →
        mapGet (updateItem oracle canW st id draft).state.skuIndex
          (normalizeSku old.sku) = none) := by
  simp only [updateItem] at hout ⊢
  by_cases hg : ¬ (requireWritePermission canW).ok = true
  · rw [if_pos hg] at hout
    exfalso
    apply hg
    have h1 : requireWritePermission canW = ⟨true, "Item updated.", some u⟩ := by
      injection hout
    rw [h1]
  · rw [if_neg hg] at hout ⊢
    rcases hv : validateDraft st.skuIndex draft (some id) with m | v
    · exfalso
      simp only [hv] at hout
      have h1 : (⟨false, m, none⟩ : OpResult) = ⟨true, "Item updated.", some u⟩ := by
        injection hout
      injection h1 with h2 h3 h4
      exact absurd h2 (by simp)
    · simp only [hv] at hout ⊢
      rcases hfi : findIdxItem st.items id with _ | ⟨i, old⟩
      · exfalso
        simp only [hfi] at hout
        have h1 : (⟨false, "Item not found.", none⟩ : OpResult)
            = ⟨true, "Item updated.", some u⟩ := by
          injection hout
        injection h1 with h2 h3 h4
        exact absurd h2 (by simp)
      · simp only [hfi] at hout ⊢
        by_cases ho : oracle (.putItem ⟨old.id, v.name, v.sku, v.quantity, v.price⟩) = true
        · rw [if_pos ho] at hout ⊢
          have h1 : (⟨true, "Item updated.",
              some (⟨old.id, v.name, v.sku, v.quantity, v.price⟩ : Item)⟩ : OpResult)
              = ⟨true, "Item updated.", some u⟩ := by
            injection hout
          injection h1 with h2 h3 h4
          have h5 : (⟨old.id, v.name, v.sku, v.quantity, v.price⟩ : Item) = u := by
            injection h4
          intro i' old' hf'
          have h6 : (i, old) = (i', old') := by injection hf'
          rw [Prod.mk.injEq] at h6
          rw [← h6.2]
          refine ⟨?_, ?_, ?_, ?_⟩
          · rw [← h5]
          · rw [← h5]
            exact updateItem_core_get st draft hInv id i old v hv hfi
          · rw [← h5]
            exact updateItem_core_count st draft hInv id i old v hv hfi
          · intro hne
            rw [← h5] at hne
            exact updateItem_core_oldgone st draft hInv id i old v hv hfi hne
        · exfalso
          rw [if_neg ho] at hout
          have h1 : (⟨false, "Database rejected this update (possible duplicate SKU).", none⟩
              : OpResult) = ⟨true, "Item updated.", some u⟩ := by
            injection hout
          injection h1 with h2 h3 h4
          exact absurd h2 (by simp)

theorem get?_set_general : ∀ (l : List Item) (r x : Nat) (it : Item),
    (l.set r it).get? x = if x = r ∧ r < l.length then some it else l.get? x := by
  intro l
  induction l with
  | nil => intro r x it; simp
  | cons a t ih =>
    intro r x it
    cases r with
    | zero =>
      cases x with
      | zero => simp
      | succ x' => simp
    | succ r' =>
      cases x with
      | zero => simp
      | succ x' =>
        rw [List.set_cons_succ]
        have h1 : ((a :: t.set r' it).get? (x' + 1)) = (t.set r' it).get? x' := rfl
        rw [h1, ih r' x' it]
        by_cases hc : x' = r' ∧ r' < t.length
        · rw [if_pos hc, if_pos (by rw [List.length_cons]; omega)]
        · rw [if_neg hc, if_neg (by rw [List.length_cons]; omega)]
          rfl

/-- Claim C1: for every input array `S` and every comparator `C`,
`mergeSort(S, C)` returns an array with the same length and the same
multiset of elements as `S`, arranged so that consecutive output elements
`a` then `b` satisfy `C(a,b) <= 0`.  As stated over arbitrary comparators
the ordering part is false (see the counterexample); it holds for every
comparator satisfying totality (`∀ a b, C(a,b) ≤ 0 ∨ C(b,a) ≤ 0`), while
length and multiset preservation hold unconditionally. -/
theorem claim1_mergeSort_correct (cmp : α → α → Int) (l : List α) :
    (mergeSort cmp l).length = l.length ∧
    List.Perm (mergeSort cmp l) l ∧
    ((∀ a b, cmp a b ≤ 0 ∨ cmp b a ≤ 0) →
      (mergeSort cmp l).Chain' (fun a b => cmp a b ≤ 0)) :=
  ⟨(mergeSort_perm cmp l).length_eq, mergeSort_perm cmp l,
    fun htot => mergeSort_chain cmp htot l⟩

/-- Claim C1, counterexample to the universally-quantified sortedness
conjunct: with the comparator that always answers `1`, sorting `[0, 1]`
yields `[1, 0]`, whose consecutive pair violates `C(a,b) ≤ 0`. -/
theorem claim1_counterexample :
    mergeSort cmpBad [0, 1] = [1, 0] ∧
    ¬ (mergeSort cmpBad [0, 1]).Chain' (fun a b => cmpBad a b ≤ 0) := by
  have he : mergeSort cmpBad [0, 1] = [1, 0] := by
    simp [mergeSort, merge, cmpBad]
  refine ⟨he, ?_⟩
  rw [he]
  intro hc
  rw [List.chain'_cons] at hc
  have h1 := hc.1
  rw [cmpBad] at h1
  omega

/-- Witness for claim C1 at a concrete lawful comparator and input. -/
theorem claim1_witness :
    (∀ a b : Fin 3, cmpFin a b ≤ 0 ∨ cmpFin b a ≤ 0) ∧
    (mergeSort cmpFin [2, 0, 1]).length = ([2, 0, 1] : List (Fin 3)).length ∧
    List.Perm (mergeSort cmpFin [2, 0, 1]) ([2, 0, 1] : List (Fin 3)) ∧
    (mergeSort cmpFin [2, 0, 1]).Chain' (fun a b => cmpFin a b ≤ 0) := by
  have h := claim1_mergeSort_correct cmpFin ([2, 0, 1] : List (Fin 3))
  exact ⟨by decide, h.1, h.2.1, h.2.2 (by decide)⟩

/-- Claim C2: `mergeSort` is stable for every input and comparator, and
the merge step emits the left element on an exact-zero comparison.  The
tie-goes-left property of `merge` is stated and proved unconditionally,
for every comparator; the stability property is false for arbitrary
comparators (see the counterexample) and holds for every comparator that
is total (`C(a,b) ≤ 0 ∨ C(b,a) ≤ 0`), transitive on `≤ 0`, and
tie-symmetric (`C(a,b) = 0 → C(b,a) = 0`), which is hypothesised inside
that conjunct only.  Stability is stated by tagging each element with its
original index: tied elements keep strictly increasing tags in the
output. -/
theorem claim2_mergeSort_stable (cmp : α → α → Int) (l : List α) :
    (∀ (x y : α) (xs ys : List α), cmp x y = 0 →
      merge cmp (x :: xs) (y :: ys) = x :: merge cmp xs (y :: ys)) ∧
    ((∀ a b, cmp a b ≤ 0 ∨ cmp b a ≤ 0) →
      (∀ a b c, cmp a b ≤ 0 → cmp b c ≤ 0 → cmp a c ≤ 0) →
      (∀ a b, cmp a b = 0 → cmp b a = 0) →
      (mergeSort (fun p q => cmp p.1 q.1) (tagFrom 0 l)).Pairwise
        (fun p q => cmp p.1 q.1 = 0 → p.2 < q.2)) := by
  constructor
  · intro x y xs ys h0
    rw [merge_cons_cons, if_pos (le_of_eq h0)]
  · intro htot htrans hzero
    have hg := mergeSort_goodT_aux cmp htot htrans hzero (tagFrom 0 l).length (tagFrom 0 l)
      le_rfl (tagFrom_tags_lt l 0)
    exact hg.imp (fun h => h.2)

/-- Claim C2, counterexample to stability over arbitrary comparators:
`cmpW 1 0 = 0` declares `1` and `0` tied, yet sorting `[0, 1]` (tagged
with original positions `0` and `1`) emits `1` before `0`, reversing the
tied elements' input order. -/
theorem claim2_counterexample :
    cmpW 1 0 = 0 ∧
    mergeSort cmpW [0, 1] = [1, 0] ∧
    ¬ ((mergeSort (fun p q : Nat × Nat => cmpW p.1 q.1) (tagFrom 0 [0, 1])).Pairwise
      (fun p q => cmpW p.1 q.1 = 0 → p.2 < q.2)) := by
  refine ⟨by decide, ?_, ?_⟩
  · simp [mergeSort, merge, cmpW]
  · have he : mergeSort (fun p q : Nat × Nat => cmpW p.1 q.1) (tagFrom 0 [0, 1])
        = [(1, 1), (0, 0)] := by
      simp [tagFrom, mergeSort, merge, cmpW]
    rw [he]
    decide

/-- Witness for claim C2 at a concrete lawful comparator and input. -/
theorem claim2_witness :
    merge cmpFin [0] [0] = 0 :: merge cmpFin [] [0] ∧
    (mergeSort (fun p q => cmpFin p.1 q.1) (tagFrom 0 ([1, 0, 1] : List (Fin 3)))).Pairwise
      (fun p q => cmpFin p.1 q.1 = 0 → p.2 < q.2) := by
  have h := claim2_mergeSort_stable cmpFin ([1, 0, 1] : List (Fin 3))
  exact ⟨h.1 0 0 [] [] (by decide), h.2 (by decide) (by decide) (by decide)⟩

/-- Claim C3: after every completed inventory-service operation (`init`,
`addItem`, `updateItem`, `deleteItem`, `resetDemoData`) the SKU index
contains exactly one entry per live record, keyed by that record's current
normalized SKU (the invariant `SvcInv`, which also tracks id uniqueness,
relied on via `makeId` and the database primary key; for `init` the loaded
collection is assumed to satisfy the storage layer's uniqueness
guarantees).  In particular a successful `updateItem` that renames a
record's SKU from `A` to `B` leaves no index entry for `A` and exactly one
entry for `B` holding that record (same id). -/
theorem claim3_index_consistency
    (st : SvcState) (hInv : SvcInv st)
    (oracle : Oracle) (canW : Bool) (draft : Draft) (id freshId : Nat)
    (hfresh : freshId ∉ st.items.map (fun it => it.id))
    (loaded : List Item)
    (hload : (loaded.map (fun it => normalizeSku it.sku)).Nodup ∧
      (loaded.map (fun it => it.id)).Nodup)
    (i1 i2 i3 : Nat) (hids : i1 ≠ i2 ∧ i1 ≠ i3 ∧ i2 ≠ i3) :
    SvcInv (initSvc loaded) ∧
    SvcInv (addItem oracle canW st freshId draft).state ∧
    SvcInv (updateItem oracle canW st id draft).state ∧
    SvcInv (deleteItem oracle canW st id).state ∧
    SvcInv (resetDemoData oracle canW st (i1, i2, i3)).state ∧
    (∀ u, (updateItem oracle canW st id draft).out = .ret ⟨true, "Item updated.", some u⟩ →
      ∀ i old, findIdxItem st.items id = some (i, old) →
        u.id = old.id ∧
        mapGet (updateItem oracle canW st id draft).state.skuIndex
          (normalizeSku u.sku) = some u ∧
        countKey (updateItem oracle canW st id draft).state.skuIndex
          (normalizeSku u.sku) = 1 ∧
        (normalizeSku old.sku ≠ normalizeSku u.sku →
          mapGet (updateItem oracle canW st id draft).state.skuIndex
            (normalizeSku old.sku) = none)) :=
  ⟨svcInv_initSvc loaded hload.1 hload.2,
   svcInv_addItem oracle canW st freshId draft hInv hfresh,
   svcInv_updateItem oracle canW st id draft hInv,
   svcInv_deleteItem oracle canW st id hInv,
   svcInv_resetDemoData oracle canW st i1 i2 i3 hInv hids,
   fun u hout => updateItem_rename oracle canW st id draft hInv u hout⟩

/-- Witness for claim C3 at a concrete state and inputs. -/
theorem claim3_witness :
    SvcInv stB ∧ (7 ∉ stB.items.map (fun it => it.id)) ∧
    (([itemB].map (fun it => normalizeSku it.sku)).Nodup ∧
      ([itemB].map (fun it => it.id)).Nodup) ∧
    ((1 : Nat) ≠ 2 ∧ (1 : Nat) ≠ 3 ∧ (2 : Nat) ≠ 3) ∧
    (SvcInv (initSvc [itemB]) ∧
     SvcInv (addItem (fun _ => true) true stB 7 draft0).state ∧
     SvcInv (updateItem (fun _ => true) true stB 1 draft0).state ∧
     SvcInv (deleteItem (fun _ => true) true stB 1).state ∧
     SvcInv (resetDemoData (fun _ => true) true stB (1, 2, 3)).state ∧
     (∀ u, (updateItem (fun _ => true) true stB 1 draft0).out
          = .ret ⟨true, "Item updated.", some u⟩ →
      ∀ i old, findIdxItem stB.items 1 = some (i, old) →
        u.id = old.id ∧
        mapGet (updateItem (fun _ => true) true stB 1 draft0).state.skuIndex
          (normalizeSku u.sku) = some u ∧
        countKey (updateItem (fun _ => true) true stB 1 draft0).state.skuIndex
          (normalizeSku u.sku) = 1 ∧
        (normalizeSku old.sku ≠ normalizeSku u.sku →
          mapGet (updateItem (fun _ => true) true stB 1 draft0).state.skuIndex
            (normalizeSku old.sku) = none))) := by
  have hInv : SvcInv stB := by
    refine ⟨?_, by decide, by decide⟩
    have h : stB.items.map skuEntry = [("B-1".data, itemB)] := by decide
    rw [h]
    exact List.Perm.refl _
  exact ⟨hInv, by decide, ⟨by decide, by decide⟩, by decide,
    claim3_index_consistency stB hInv (fun _ => true) true draft0 1 7 (by decide)
      [itemB] ⟨by decide, by decide⟩ 1 2 3 (by decide)⟩

/-- Claim C4: with `canWrite()` false, each of the four mutation
operations returns the permission-denied failure result, makes no storage
call, and leaves the in-memory state unchanged. -/
theorem claim4_permission_gate (oracle : Oracle) (st : SvcState) (freshId id : Nat)
    (draft : Draft) (ids : Nat × Nat × Nat) :
    addItem oracle false st freshId draft
      = ⟨.ret ⟨false, "Read-only mode. Unlock admin mode to make changes.", none⟩, st, []⟩ ∧
    updateItem oracle false st id draft
      = ⟨.ret ⟨false, "Read-only mode. Unlock admin mode to make changes.", none⟩, st, []⟩ ∧
    deleteItem oracle false st id
      = ⟨.ret ⟨false, "Read-only mode. Unlock admin mode to make changes.", none⟩, st, []⟩ ∧
    resetDemoData oracle false st ids
      = ⟨.ret ⟨false, "Read-only mode. Unlock admin mode to make changes.", none⟩, st, []⟩ :=
  ⟨rfl, rfl, rfl, rfl⟩

/-- Claim C5: if the storage collaborator rejects its persistence call,
every operation leaves the in-memory collection and SKU index exactly as
they were before the call, for every pre-call state and input. -/
theorem claim5_persistence_atomicity (oracle : Oracle) (hrej : ∀ c, oracle c = false)
    (canW : Bool) (st : SvcState) (freshId id : Nat) (draft : Draft)
    (ids : Nat × Nat × Nat) :
    (addItem oracle canW st freshId draft).state = st ∧
    (updateItem oracle canW st id draft).state = st ∧
    (deleteItem oracle canW st id).state = st ∧
    (resetDemoData oracle canW st ids).state = st := by
  refine ⟨?_, ?_, ?_, ?_⟩
  · simp only [addItem]
    by_cases hg : ¬ (requireWritePermission canW).ok = true
    · rw [if_pos hg]
    · rw [if_neg hg]
      rcases hv : validateDraft st.skuIndex draft none with m | v
      · rfl
      · simp only []
        rw [if_neg (by simp [hrej])]
  · simp only [updateItem]
    by_cases hg : ¬ (requireWritePermission canW).ok = true
    · rw [if_pos hg]
    · rw [if_neg hg]
      rcases hv : validateDraft st.skuIndex draft (some id) with m | v
      · rfl
      · simp only []
        rcases hfi : findIdxItem st.items id with _ | ⟨i, old⟩
        · rfl
        · simp only []
          rw [if_neg (by simp [hrej])]
  · simp only [deleteItem]
    by_cases hg : ¬ (requireWritePermission canW).ok = true
    · rw [if_pos hg]
    · rw [if_neg hg]
      rcases hfi : findIdxItem st.items id with _ | ⟨i, old⟩
      · rfl
      · simp only []
        rw [if_neg (by simp [hrej])]
  · simp only [resetDemoData]
    by_cases hg : ¬ (requireWritePermission canW).ok = true
    · rw [if_pos hg]
    · rw [if_neg hg]
      rw [if_neg (by simp [hrej])]

/-- Witness for claim C5 at a concrete all-rejecting storage collaborator. -/
theorem claim5_witness :
    (∀ c, (fun _ => false : Oracle) c = false) ∧
    ((addItem (fun _ => false) true stB 7 draft0).state = stB ∧
     (updateItem (fun _ => false) true stB 1 draft0).state = stB ∧
     (deleteItem (fun _ => false) true stB 1).state = stB ∧
     (resetDemoData (fun _ => false) true stB (1, 2, 3)).state = stB) :=
  ⟨fun _ => rfl,
   claim5_persistence_atomicity (fun _ => false) (fun _ => rfl) true stB 7 1 draft0 (1, 2, 3)⟩

/-- Claim C6: when a draft's normalized SKU equals the normalized SKU of
an existing record with a different id, `addItem` fails with a validation
error, and `updateItem id draft` fails with a validation error whenever
that record's id differs from `id`; in both cases no storage call is made
and the in-memory state is left entirely unchanged. -/
theorem claim6_duplicate_sku (st : SvcState) (hInv : SvcInv st) (e : Item)
    (he : e ∈ st.items) (draft : Draft)
    (hsku : normalizeSku (jsTrim (strOrEmpty draft.sku)) = normalizeSku e.sku)
    (oracle : Oracle) (freshId id : Nat) (hid : e.id ≠ id) :
    (∃ m, m ∈ validationMessages ∧
      addItem oracle true st freshId draft = ⟨.ret ⟨false, m, none⟩, st, []⟩) ∧
    (∃ m, m ∈ validationMessages ∧
      updateItem oracle true st id draft = ⟨.ret ⟨false, m, none⟩, st, []⟩) := by
  constructor
  · rcases hv : validateDraft st.skuIndex draft none with m | v
    · exact ⟨m, validateDraft_fail_mem _ _ _ _ hv,
        by simp [addItem, requireWritePermission, hv]⟩
    · exfalso
      have spec := validateDraft_pass _ _ _ _ hv
      have hget : mapGet st.skuIndex v.sku = some e := by
        rw [spec.2.2.1, hsku]
        exact inv_mapGet_mem hInv he
      exact absurd (spec.2.2.2.2.2.2.2.2.2 e hget) (by simp)
  · rcases hv : validateDraft st.skuIndex draft (some id) with m | v
    · exact ⟨m, validateDraft_fail_mem _ _ _ _ hv,
        by simp [updateItem, requireWritePermission, hv]⟩
    · exfalso
      have spec := validateDraft_pass _ _ _ _ hv
      have hget : mapGet st.skuIndex v.sku = some e := by
        rw [spec.2.2.1, hsku]
        exact inv_mapGet_mem hInv he
      have h1 := spec.2.2.2.2.2.2.2.2.2 e hget
      apply hid
      injection h1

/-- Witness for claim C6: adding or renaming to the SKU `" b-1 "` (which
normalizes to the existing record's `"B-1"`) is rejected. -/
theorem claim6_witness :
    SvcInv stB ∧ itemB ∈ stB.items ∧
    normalizeSku (jsTrim (strOrEmpty (StrVal.str " b-1 ".data)))
      = normalizeSku itemB.sku ∧
    itemB.id ≠ 9 ∧
    ((∃ m, m ∈ validationMessages ∧
      addItem (fun _ => true) true stB 7 ⟨.str "A".data, .str " b-1 ".data, .num 1, .num 2⟩
        = ⟨.ret ⟨false, m, none⟩, stB, []⟩) ∧
     (∃ m, m ∈ validationMessages ∧
      updateItem (fun _ => true) true stB 9 ⟨.str "A".data, .str " b-1 ".data, .num 1, .num 2⟩
        = ⟨.ret ⟨false, m, none⟩, stB, []⟩)) := by
  have hInv : SvcInv stB := by
    refine ⟨?_, by decide, by decide⟩
    have h : stB.items.map skuEntry = [("B-1".data, itemB)] := by decide
    rw [h]
    exact List.Perm.refl _
  exact ⟨hInv, by decide, by decide, by decide,
    claim6_duplicate_sku stB hInv itemB (by decide)
      ⟨.str "A".data, .str " b-1 ".data, .num 1, .num 2⟩ (by decide)
      (fun _ => true) 7 9 (by decide)⟩

/-- Claim C7 concerns the specification's promise that `deleteItem` and
`resetDemoData` surface storage failures as `PersistenceError` results.
The code has no `try/catch` around `await deleteItemById(id)` or
`await clearAndSeed(demo)`, so a rejected persistence call propagates as
an exception (`DOut.thrown`) instead of a returned failure result; the
in-memory state is nevertheless unchanged.  This theorem evaluates both
operations at a failing storage collaborator. -/
theorem claim7_delete_reset_throw :
    deleteItem (fun _ => false) true stB 1 = ⟨.thrown, stB, [.deleteItemById 1]⟩ ∧
    resetDemoData (fun _ => false) true stB (1, 2, 3)
      = ⟨.thrown, stB, [.clearAndSeed (demoItems (1, 2, 3))]⟩ :=
  ⟨by decide, rfl⟩

/-- Claim C8, counterexample: `getAll` returns only a shallow copy
(`[...this.items]`), so mutating a record object obtained from the
returned array changes the service's internal collection: with one record
on the heap, writing through reference `0` (which the returned array
contains) changes the collection the service observes. -/
theorem claim8_counterexample :
    0 ∈ getAllRefs ⟨[itemB], [0], true⟩ ∧
    viewItems (clientMutateRecord ⟨[itemB], [0], true⟩ 0 itemC)
      ≠ viewItems ⟨[itemB], [0], true⟩ := by
  decide

/-- Claim C8, amended: `getAll` returns a fresh array holding the current
record references, without consulting the permission state — so caller
mutation of the returned array itself cannot affect the service — but the
copy is shallow: the records are shared, and a caller field-write through
a returned reference `r` is reflected at every position of the service's
collection that holds `r`. -/
theorem claim8_amended (heap : List Item) (refs : List Nat) (b b' : Bool)
    (st : SvcState) :
    getAllRefs ⟨heap, refs, b⟩ = getAllRefs ⟨heap, refs, b'⟩ ∧
    getAllRefs ⟨heap, refs, b⟩ = refs ∧
    getAll st = st.items ∧
    (∀ r it, viewItems (clientMutateRecord ⟨heap, refs, b⟩ r it)
      = refs.map (fun x => if x = r ∧ r < heap.length then some it else heap.get? x)) := by
  refine ⟨rfl, rfl, rfl, ?_⟩
  intro r it
  simp only [viewItems, clientMutateRecord]
  apply List.map_congr_left
  intro x _
  exact get?_set_general heap r x it

/-- Claim C9: `validateDraft` is idempotent — if it accepts a draft and
returns the normalized tuple `{name, sku, quantity, price}`, then
validating that tuple again (same index, same `existingId`) succeeds and
returns the same tuple. -/
theorem claim9_validate_idempotent (idx : Index) (d : Draft) (excl : Option Nat)
    (v : NormValue) (h : validateDraft idx d excl = .pass v) :
    validateDraft idx (draftOfValue v) excl = .pass v := by
  have spec := validateDraft_pass idx d excl v h
  have hname : jsTrim v.name = v.name := by
    rw [spec.1]
    exact jsTrim_idem _
  have hsku : normalizeSku (jsTrim v.sku) = v.sku := by
    rw [spec.2.2.1, jsTrim_normalizeSku, normalizeSku_idem]
  simp only [validateDraft, draftOfValue, strOrEmpty, toNumber]
  rw [hname, hsku]
  rw [if_neg (fun hc => spec.2.1 (by
    rcases hvn : v.name with _ | ⟨c, t⟩
    · rfl
    · rw [hvn] at hc; simp at hc))]
  rw [if_neg (fun hc => spec.2.2.2.1 (by
    rcases hvs : v.sku with _ | ⟨c, t⟩
    · rfl
    · rw [hvs] at hc; simp at hc))]
  rw [if_neg (not_not_intro ⟨spec.2.2.2.2.2.1, spec.2.2.2.2.2.2.1⟩)]
  rw [if_neg spec.2.2.2.2.2.2.2.2.1]
  rcases hg : mapGet idx v.sku with _ | ex
  · rfl
  · simp only []
    rw [if_neg (not_not_intro (spec.2.2.2.2.2.2.2.2.2 ex hg))]

/-- Witness for claim C9 at a concrete draft. -/
theorem claim9_witness :
    validateDraft [] draft0 none = .pass value0 ∧
    validateDraft [] (draftOfValue value0) none = .pass value0 :=
  ⟨by decide, claim9_validate_idempotent [] draft0 none value0 (by decide)⟩

/-- Claim C10: `validateDraft` accepts drafts whose `quantity` or `price`
is the empty string, a whitespace-only string, or `null`, coercing the
degenerate field to the number 0.  Stated field by field to cover mixed
drafts: with a degenerate `quantity` the draft passes with quantity 0 for
every price coercing to a non-negative number, and with a degenerate
`price` it passes with price 0 for every quantity coercing to a
non-negative integer (a degenerate partner field itself coerces to 0, so
both-degenerate drafts are instances of either conjunct); at the coercion
level `undefined` is NaN, whitespace-only strings are 0, and a non-empty
string is parsed as a decimal numeral (NaN when non-numeric). -/
theorem claim10_empty_coercion (idx : Index) (excl : Option Nat) (nm sk : StrVal)
    (qv pv : NumVal)
    (hn : jsTrim (strOrEmpty nm) ≠ [])
    (hs : normalizeSku (jsTrim (strOrEmpty sk)) ≠ [])
    (hu : mapGet idx (normalizeSku (jsTrim (strOrEmpty sk))) = none) :
    ((qv = .null ∨ ∃ s, qv = .str s ∧ jsTrim s = []) →
      ∀ p : ℚ, toNumber pv = some p → 0 ≤ p →
        validateDraft idx ⟨nm, sk, qv, pv⟩ excl
          = .pass ⟨jsTrim (strOrEmpty nm), normalizeSku (jsTrim (strOrEmpty sk)), 0, p⟩) ∧
    ((pv = .null ∨ ∃ s, pv = .str s ∧ jsTrim s = []) →
      ∀ q : ℚ, toNumber qv = some q → q.den = 1 → 0 ≤ q →
        validateDraft idx ⟨nm, sk, qv, pv⟩ excl
          = .pass ⟨jsTrim (strOrEmpty nm), normalizeSku (jsTrim (strOrEmpty sk)), q, 0⟩) ∧
    toNumber .null = some 0 ∧ toNumber .undef = none ∧
    (∀ s, jsTrim s = [] → toNumber (.str s) = some 0) ∧
    (∀ s, jsTrim s ≠ [] → toNumber (.str s) = parseDec (jsTrim s)) := by
  have hzero : ∀ w : NumVal, (w = .null ∨ ∃ s, w = .str s ∧ jsTrim s = []) →
      toNumber w = some 0 := by
    intro w hw
    rcases hw with hw | ⟨s, hw, hts⟩
    · rw [hw]; rfl
    · rw [hw]
      simp only [toNumber, jsStringToNumber]
      rw [if_pos (by rw [hts]; rfl)]
  have hname : ¬ (jsTrim (strOrEmpty nm)).isEmpty = true := fun hc => hn (by
    rcases hvn : jsTrim (strOrEmpty nm) with _ | ⟨c, t⟩
    · rfl
    · rw [hvn] at hc; simp at hc)
  have hsku : ¬ (normalizeSku (jsTrim (strOrEmpty sk))).isEmpty = true := fun hc => hs (by
    rcases hvs : normalizeSku (jsTrim (strOrEmpty sk)) with _ | ⟨c, t⟩
    · rfl
    · rw [hvs] at hc; simp at hc)
  refine ⟨?_, ?_, rfl, rfl, ?_, ?_⟩
  · intro hq p hpv hple
    simp only [validateDraft]
    rw [if_neg hname, if_neg hsku]
    rw [hzero qv hq, hpv]
    simp only []
    rw [if_neg (not_not_intro ⟨by norm_num, by norm_num⟩)]
    rw [if_neg (not_lt.mpr hple)]
    rw [hu]
  · intro hp q hqv hden hqle
    simp only [validateDraft]
    rw [if_neg hname, if_neg hsku]
    rw [hqv, hzero pv hp]
    simp only []
    rw [if_neg (not_not_intro ⟨hden, hqle⟩)]
    rw [if_neg (by norm_num)]
    rw [hu]
  · intro s hts
    simp only [toNumber, jsStringToNumber]
    rw [if_pos (by rw [hts]; rfl)]
  · intro s hts
    simp only [toNumber, jsStringToNumber]
    rw [if_neg (fun hc => hts (by
      rcases hv : jsTrim s with _ | ⟨c, t⟩
      · rfl
      · rw [hv] at hc; simp at hc))]

/-- Witness for claim C10 on two mixed drafts: a whitespace-only quantity
with an ordinary numeric price validates with quantity 0 and that price,
and an ordinary numeric quantity with a `null` price validates with that
quantity and price 0. -/
theorem claim10_witness :
    (jsTrim (strOrEmpty (StrVal.str "A".data)) ≠ []) ∧
    (normalizeSku (jsTrim (strOrEmpty (StrVal.str "Z-9".data))) ≠ []) ∧
    mapGet [] (normalizeSku (jsTrim (strOrEmpty (StrVal.str "Z-9".data)))) = none ∧
    validateDraft [] ⟨.str "A".data, .str "Z-9".data, .str "  ".data, .num 3⟩ none
      = .pass ⟨jsTrim (strOrEmpty (StrVal.str "A".data)),
          normalizeSku (jsTrim (strOrEmpty (StrVal.str "Z-9".data))), 0, 3⟩ ∧
    validateDraft [] ⟨.str "A".data, .str "Z-9".data, .num 2, .null⟩ none
      = .pass ⟨jsTrim (strOrEmpty (StrVal.str "A".data)),
          normalizeSku (jsTrim (strOrEmpty (StrVal.str "Z-9".data))), 2, 0⟩ := by
  have h1 := claim10_empty_coercion [] none (.str "A".data) (.str "Z-9".data)
    (.str "  ".data) (.num 3) (by decide) (by decide) (by decide)
  have h2 := claim10_empty_coercion [] none (.str "A".data) (.str "Z-9".data)
    (.num 2) .null (by decide) (by decide) (by decide)
  exact ⟨by decide, by decide, by decide,
    h1.1 (Or.inr ⟨"  ".data, rfl, by decide⟩) 3 rfl (by norm_num),
    h2.2.1 (Or.inl rfl) 2 rfl (by norm_num) (by norm_num)⟩
